import Mathlib

set_option maxRecDepth 8000

/-!
Verification development for the awshit repository.

The Python sources under src/ are shallowly embedded as executable Lean
definitions.  Python strings are Lean Strings manipulated through their
character lists; Python tuples of strings are Lean lists; Python frozensets
of hashable scalars are Finsets; Python dicts used as ordered records are
association lists.  Python generators are embedded as the lists of the values
they yield, and functions that can raise are embedded in Except / Option.
Unbounded Python recursion over recursive object graphs is embedded with an
explicit fuel parameter so that every definition is executable and reduces in
the kernel.
-/

/-! ## String helpers (src/grabber/utils.py)

Character level embeddings of the Python string operations used by
utils.py: str.endswith, str.removesuffix, re.search of a literal
alternation, str.strip, re.split on separator runs, str.lower.
-/

/-- Embeds Python str.endswith: suffix test on the character list. -/
def endsWithS (s suf : String) : Bool :=
  decide (suf.data <:+ s.data)

/-- Embeds Python str.removesuffix: drop the suffix when present, else
return the string unchanged. -/
def removeSuffixS (s suf : String) : String :=
  if endsWithS s suf then String.mk (s.data.take (s.data.length - suf.data.length)) else s

/-- Embeds re.search of a literal alternation: does any of the given words
occur as a contiguous substring? -/
def containsAnyS (s : String) (pats : List String) : Bool :=
  pats.any (fun p => decide (p.data <:+: s.data))

/-- Embeds Python str.lower (ASCII data in this repository). -/
def lowerS (s : String) : String :=
  String.mk (s.data.map Char.toLower)

/-- src/grabber/utils.py singularise (lines 5-18): first matching rule wins.
Note rule four uses re.search, so the alternation may match anywhere in the
word while removesuffix only strips a trailing "es". -/
def singularise (s : String) : String :=
  if endsWithS s "ies" then removeSuffixS s "ies" ++ "y"
  else if endsWithS s "aliases" then removeSuffixS s "aliases" ++ "alias"
  else if endsWithS s "indices" then removeSuffixS s "indices" ++ "index"
  else if containsAnyS s ["addresses", "prefixes", "patches"] then removeSuffixS s "es"
  else if endsWithS s "s" && !(["ss", "bus", "status", "alias", "analysis"].any (endsWithS s)) then
    removeSuffixS s "s"
  else if endsWithS s "i" && !endsWithS s "api" then removeSuffixS s "i" ++ "us"
  else s

theorem endsWithS_iff {s suf : String} : endsWithS s suf = true ↔ suf.data <:+ s.data := by
  simp [endsWithS]

theorem endsWithS_of_endsWithS {s a b : String} (hab : b.data <:+ a.data)
    (h : endsWithS s a = true) : endsWithS s b = true :=
  endsWithS_iff.mpr (hab.trans (endsWithS_iff.mp h))

theorem removeSuffixS_of_not_ends {s suf : String} (h : endsWithS s suf = false) :
    removeSuffixS s suf = s := by
  simp [removeSuffixS, h]

/-- Claim C9, amended: a second application of singularise is the identity
provided the first result ends in neither "s" nor "i" (the two classes of
outputs on which the claim as stated fails, such as "is" to "i" to "us"). -/
theorem singularise_idem_amended (s : String)
    (hs : endsWithS (singularise s) "s" = false)
    (hi : endsWithS (singularise s) "i" = false) :
    singularise (singularise s) = singularise s := by
  have h1 : endsWithS (singularise s) "ies" = false := by
    cases h : endsWithS (singularise s) "ies" with
    | false => rfl
    | true => exact absurd (endsWithS_of_endsWithS (by decide : ("s" : String).data <:+ ("ies" : String).data) h) (by simp [hs])
  have h2 : endsWithS (singularise s) "aliases" = false := by
    cases h : endsWithS (singularise s) "aliases" with
    | false => rfl
    | true => exact absurd (endsWithS_of_endsWithS (by decide : ("s" : String).data <:+ ("aliases" : String).data) h) (by simp [hs])
  have h3 : endsWithS (singularise s) "indices" = false := by
    cases h : endsWithS (singularise s) "indices" with
    | false => rfl
    | true => exact absurd (endsWithS_of_endsWithS (by decide : ("s" : String).data <:+ ("indices" : String).data) h) (by simp [hs])
  have h4 : endsWithS (singularise s) "es" = false := by
    cases h : endsWithS (singularise s) "es" with
    | false => rfl
    | true => exact absurd (endsWithS_of_endsWithS (by decide : ("s" : String).data <:+ ("es" : String).data) h) (by simp [hs])
  rw [singularise, h1, h2, h3, hs, hi]
  simp only [Bool.false_and, if_false]
  by_cases hc : containsAnyS (singularise s) ["addresses", "prefixes", "patches"] = true
  · simp [hc, removeSuffixS_of_not_ends h4]
  · simp [hc]

/-- Witness for singularise_idem_amended at the concrete input "index". -/
theorem singularise_idem_amended_witness :
    endsWithS (singularise "index") "s" = false ∧
    endsWithS (singularise "index") "i" = false ∧
    singularise (singularise "index") = singularise "index" :=
  ⟨by decide, by decide, singularise_idem_amended "index" (by decide) (by decide)⟩

/-- Counterexample to claim C9 as stated: singularise "is" is "i" (the
trailing "s" is stripped), but singularise "i" is "us" (a trailing "i" is
replaced by "us"), so a second application changes the result. -/
theorem singularise_not_idempotent :
    singularise (singularise "is") ≠ singularise "is" := by
  decide

/-! ## Tokenisation (src/grabber/utils.py prepare_for_scoring, lines 20-23) -/

/-- First substitution of prepare_for_scoring: re.sub of an upper-lower pair
with a space before the pair; matches are non overlapping, left to right. -/
def camelSub1 : List Char → List Char
  | a :: b :: rest =>
    if a.isUpper && b.isLower then ' ' :: a :: b :: camelSub1 rest
    else a :: camelSub1 (b :: rest)
  | l => l

/-- Second substitution of prepare_for_scoring: re.sub of a lower-upper pair
with a space between the two characters. -/
def camelSub2 : List Char → List Char
  | a :: b :: rest =>
    if a.isLower && b.isUpper then a :: ' ' :: b :: camelSub2 rest
    else a :: camelSub2 (b :: rest)
  | l => l

/-- Embeds Python str.strip: drop whitespace from both ends. -/
def stripChars (l : List Char) : List Char :=
  ((l.dropWhile Char.isWhitespace).reverse.dropWhile Char.isWhitespace).reverse

theorem length_dropWhile_le' (p : α → Bool) (l : List α) :
    (l.dropWhile p).length ≤ l.length := by
  induction l with
  | nil => simp [List.dropWhile]
  | cons a l ih =>
    by_cases h : p a <;> simp [List.dropWhile, h]
    omega

/-- Split on maximal runs of characters satisfying p, keeping empty pieces at
the boundaries, as re.split on a one-or-more character class does.  The
inSep flag records that the scan is inside a separator run. -/
def splitRunAux (p : Char → Bool) : Bool → List Char → List Char → List (List Char)
  | _, cur, [] => [cur.reverse]
  | inSep, cur, c :: rest =>
    if p c then
      if inSep then splitRunAux p true [] rest
      else cur.reverse :: splitRunAux p true [] rest
    else splitRunAux p false (c :: cur) rest

def splitRunGo (p : Char → Bool) (cur : List Char) (l : List Char) : List (List Char) :=
  splitRunAux p false cur l

/-- The separator class of re.split in prepare_for_scoring: dash, underscore,
dot and whitespace. -/
def isSepChar (c : Char) : Bool :=
  c = '-' || c = '_' || c = '.' || c.isWhitespace

/-- src/grabber/utils.py prepare_for_scoring (lines 20-23): insert camel-case
breaks, strip, split on separator runs, lowercase and singularise each part. -/
def prepareForScoring (s : String) : List String :=
  (splitRunGo isSepChar [] (stripChars (camelSub2 (camelSub1 s.data)))).map
    (fun t => singularise (lowerS (String.mk t)))

/-- Embeds Python str.split with no separator: whitespace tokens, empties
dropped. -/
def wsTokens (s : String) : List String :=
  ((splitRunGo Char.isWhitespace [] s.data).filter (fun t => !t.isEmpty)).map String.mk

/-- Embeds Python str.split on a single character (non collapsing). -/
def splitOnCharGo (c : Char) (cur : List Char) : List Char → List (List Char)
  | [] => [cur.reverse]
  | x :: rest =>
    if x = c then cur.reverse :: splitOnCharGo c [] rest
    else splitOnCharGo c (x :: cur) rest

/-! ## Stable descending sort

Embeds Python sorted(xs, key=key, reverse=True): stable insertion sort,
larger keys first, original order kept among equal keys. -/

def insertDesc [LinearOrder κ] (key : α → κ) (x : α) : List α → List α
  | [] => [x]
  | y :: ys => if key y ≤ key x then x :: y :: ys else y :: insertDesc key x ys

def descSort [LinearOrder κ] (key : α → κ) : List α → List α
  | [] => []
  | x :: xs => insertDesc key x (descSort key xs)

/-! ## KeySpec (src/grabber/utils.py, lines 25-83)

A KeySpec is the tuple of normalised tokens; embedded as a list of strings.
-/

def idFormats : List String := ["id", "name", "arn", "code", "list", "identifier"]

def keySuffixes : List String := ["key"]

/-- KeySpec.make (utils.py lines 29-32): verb-stripped singularised method
tokens followed by the prepared key tokens. -/
def keySpecMake (key : String) (m : Option String) : List String :=
  (((splitOnCharGo '_' [] (lowerS (m.getD "")).data).map String.mk).drop 1).map singularise
    ++ prepareForScoring key

/-- KeySpec.get_format (utils.py lines 34-36): the last token when it is a
recognised format. -/
def getFormat (ks : List String) : Option String :=
  ks.getLast?.bind (fun t => if idFormats.contains t then some t else none)

/-- KeySpec.without_format (utils.py lines 38-41). -/
def withoutFormat (ks : List String) : List String :=
  if (getFormat ks).isSome then ks.dropLast else ks

/-- KeySpec.key_score (utils.py lines 43-51): the no_format and arn
parameters are accepted but commented out of the returned tuple in the
source, so the score is the triple (length, correct_format, not suffix). -/
def keyScore (length : ℤ) (correctFormat suffix : Bool) : List ℤ :=
  [length, if correctFormat then 1 else 0, if suffix then 0 else 1]

/-- KeySpec.matchers (utils.py lines 53-72): every contiguous sub-window of
the non format prefix (including the empty window, whose bare pattern is
omitted), each format variant, then "key"-suffixed copies with the last
score component zeroed, sorted descending by (score, pattern). -/
def matchersOf (ks : List String) : List (List ℤ × String) :=
  let maxLen := (withoutFormat ks).length
  let base := ((List.range (maxLen + 1)).reverse).flatMap (fun l =>
    (List.range (maxLen - l + 1)).flatMap (fun start =>
      let k := if l = 0 then " " else " " ++ String.intercalate " " ((ks.drop start).take l) ++ " "
      (if l ≠ 0 then [(keyScore (l : ℤ) false false, k)] else []) ++
      idFormats.map (fun id => (keyScore (l : ℤ) (decide (getFormat ks = some id)) false, k ++ id ++ " "))))
  let withSuffixed := base ++ base.flatMap (fun m =>
    keySuffixes.map (fun x => (m.1.dropLast ++ [0], m.2 ++ x ++ " ")))
  descSort (fun m => toLex (m.1, m.2.data)) withSuffixed

/-- KeySpec.matches (utils.py lines 74-75): any non format token occurs among
the items. -/
def ksMatches (ks : List String) (items : List String) : Bool :=
  (withoutFormat ks).any (fun k => items.contains k)

/-- KeySpec.score (utils.py lines 77-81): the score of the first (hence best,
matchers are sorted descending) matcher whose pattern is a suffix of the
space joined items. -/
def kscore (ks : List String) (items : List String) : Option (List ℤ) :=
  let s := " " ++ String.intercalate " " items ++ " "
  ((matchersOf ks).find? (fun m => endsWithS s m.2)).map Prod.fst

/-- The pattern token tuples used by Service.how_to_get bucket selection
(src/grabber/service.py lines 62-64): tuple(k.split()) per matcher. -/
def matcherPatterns (ks : List String) : List (List String) :=
  (matchersOf ks).map (fun m => wsTokens m.2)

/-! ## OutputPath segments and JSON-like values (src/grabber/utils.py lines 85-134)

An OutputPath is a tuple of member names with a distinguished interned
ITERATE marker; tuple elements are compared against the marker with Python
identity, so the marker is embedded as its own constructor, distinct from
any member name (even a member literally called "*"). -/

inductive Seg where
  | iterate
  | field (name : String)
  deriving DecidableEq, Repr

abbrev OutputPathT := List Seg

/-- OutputPath.non_branching (utils.py lines 113-116): drop the ITERATE
markers, keeping the member names.  When no marker is present the identity
filter below keeps the tuple unchanged, exactly as the source's early
return does. -/
def nonBranching (p : OutputPathT) : List String :=
  p.filterMap (fun s => match s with | .iterate => none | .field n => some n)

/-- OutputPath.to_jq (utils.py lines 121-122). -/
def toJq (p : OutputPathT) : String :=
  String.join (p.map (fun s => match s with | .iterate => "[]" | .field n => "." ++ n))

/-- OutputPath.to_jmespath (utils.py lines 124-125): to_jq with one leading
dot removed (str.removeprefix, character level). -/
def toJmespath (p : OutputPathT) : String :=
  match (toJq p).data with
  | '.' :: rest => String.mk rest
  | cs => String.mk cs

/-- A JSON-like value as produced by a deserialised API response page. -/
inductive Value where
  | obj (fields : List (String × Value))
  | arr (elems : List Value)
  | str (s : String)
  | int (n : Int)

/-- First-match association lookup, as Python dict indexing on the embedded
field list (field names are unique in a response object). -/
def lookupF (fs : List (String × Value)) (k : String) : Option Value :=
  match fs with
  | [] => none
  | (k', v) :: rest => if k' = k then some v else lookupF rest k

/-- One iteration step of apply_to at an ITERATE marker: Python iterates a
list over its elements, a dict over its KEYS (not its values), a string over
its characters; an integer is not iterable (TypeError). -/
def iterVal : Value → Option (List Value)
  | .arr es => some es
  | .obj fs => some (fs.map (fun kv => Value.str kv.1))
  | .str s => some (s.data.map (fun c => Value.str (String.mk [c])))
  | .int _ => none

/-- One indexing step of apply_to at a member name: Python indexes a dict by
the key (KeyError when absent); indexing a list or scalar by a string is a
TypeError. -/
def indexVal (k : String) : Value → Option Value
  | .obj fs => lookupF fs k
  | _ => none

/-- OutputPath.apply_to (utils.py lines 127-134): start from the singleton
page list and fold the path segments, flattening at ITERATE and indexing at
member names; any Python exception is embedded as none. -/
def applyTo (p : OutputPathT) (data : Value) : Option (List Value) :=
  p.foldlM
    (fun acc s =>
      match s with
      | Seg.iterate => (acc.mapM iterVal).map List.flatten
      | Seg.field k => acc.mapM (indexVal k))
    [data]

/-! ## Shapes (botocore shape trees as recognised by src/grabber/utils.py)

The finite tree view of a botocore shape: structures with ordered members
and a required-member list, lists, maps, strings with a possibly empty enum,
and the remaining scalars identified by their type_name. -/

inductive Shape where
  | struct (members : List (String × Shape)) (required : List String)
  | list (member : Shape)
  | map (value : Shape)
  | strEnum (enum : List String)
  | scalar (typeName : String)

/-- The non string scalar type_names that map_shape treats as leaves. -/
def leafScalarNames : List String := ["integer", "long", "timestamp", "float", "double"]

/-- OutputPath.map_shape (utils.py lines 98-111) on a finite shape tree.
The source returns immediately when max_depth is not positive and passes
max_depth-1 to every recursive call, so the recursion is structural on
max_depth; only_leaves is kept from the source and every yield is the
triple (path, shape, parent) exactly as in the source.  Structure members
are visited in declaration order; list and map recursion appends the
ITERATE marker. -/
def mapShapeT : Nat → OutputPathT → Shape → Option Shape → Bool →
    List (OutputPathT × Shape × Option Shape)
  | 0, _, _, _, _ => []
  | d + 1, p, s, parent, onlyLeaves =>
    (if onlyLeaves then [] else [(p, s, parent)]) ++
    match s with
    | .struct members _ =>
      (members.map (fun kv => mapShapeT d (p ++ [Seg.field kv.1]) kv.2 (some s) onlyLeaves)).flatten
    | .list member => mapShapeT d (p ++ [Seg.iterate]) member (some s) onlyLeaves
    | .map value => mapShapeT d (p ++ [Seg.iterate]) value (some s) onlyLeaves
    | .strEnum _ => if onlyLeaves then [(p, s, parent)] else []
    | .scalar tn => if onlyLeaves && leafScalarNames.contains tn then [(p, s, parent)] else []

/-- OutputPath.from_shape (utils.py lines 91-93): map_shape from the empty
path with the source defaults parent=None, max_depth=10, only_leaves=True;
a missing shape (Python None, falsy) yields nothing. -/
def fromShapeT (s : Option Shape) : List (OutputPathT × Shape × Option Shape) :=
  match s with
  | none => []
  | some sh => mapShapeT 10 [] sh none true

/-- Conformance of a value to a shape tree, with fuel for the nesting depth:
structure members all present and conforming, list elements conforming, map
values conforming, strings in the enum when one is declared, integers for
the numeric scalars. -/
def conformsF : Nat → Shape → Value → Bool
  | 0, _, _ => false
  | f + 1, s, v =>
    match s, v with
    | .struct members _, .obj fs =>
      members.all (fun kv =>
        match lookupF fs kv.1 with
        | some w => conformsF f kv.2 w
        | none => false)
    | .list m, .arr es => es.all (fun w => conformsF f m w)
    | .map m, .obj fs => fs.all (fun kv => conformsF f m kv.2)
    | .strEnum enum, .str t => enum.isEmpty || enum.contains t
    | .scalar _, .int _ => true
    | _, _ => false

/-- Claim C8 at the failing input (code bug): for a map-of-string shape,
from_shape enumerates the single path consisting of one ITERATE marker and
its leaf is the map's value shape, and the object with one entry "k" to "v"
conforms to the shape; yet apply_to at an ITERATE marker iterates the Python
dict, which produces its KEYS, so the reached set is the string "k" and not
the leaf value "v" sitting at the enumerated leaf position. -/
theorem applyTo_map_reaches_keys :
    fromShapeT (some (Shape.map (Shape.strEnum []))) =
      [([Seg.iterate], Shape.strEnum [], some (Shape.map (Shape.strEnum [])))] ∧
    conformsF 10 (Shape.map (Shape.strEnum [])) (Value.obj [("k", Value.str "v")]) = true ∧
    toJmespath [Seg.iterate] = "[]" ∧
    applyTo [Seg.iterate] (Value.obj [("k", Value.str "v")]) = some [Value.str "k"] ∧
    Value.str "k" ≠ Value.str "v" := by
  refine ⟨rfl, rfl, by decide, rfl, ?_⟩
  intro h
  injection h with h2
  exact absurd h2 (by decide)

/-! ## Shape graphs (botocore shape references may form cycles)

A botocore shape model is a graph of named shapes referring to one another
by name, and shape recursion can be cyclic; map_shape's max_depth is what
bounds the traversal.  The graph embedding mirrors utils.py map_shape with
shapes resolved through the graph; an unresolvable reference behaves like
Python None (the falsy guard). -/

inductive GShape where
  | struct (members : List (String × String))
  | list (member : String)
  | map (value : String)
  | strEnum (enum : List String)
  | scalar (typeName : String)
  deriving DecidableEq

abbrev ShapeGraph := List (String × GShape)

/-- OutputPath.map_shape (utils.py lines 98-111) over a shape graph: the
source returns when max_depth is not positive and passes max_depth-1 to each
recursive call, so the recursion is structural on max_depth and total even
on cyclic graphs. -/
def mapShapeG (g : ShapeGraph) : Nat → OutputPathT → Option String → Option String → Bool →
    List (OutputPathT × String × Option String)
  | 0, _, _, _, _ => []
  | d + 1, p, ref, parent, onlyLeaves =>
    match ref.bind (fun r => (g.lookup r).map (fun sh => (r, sh))) with
    | none => []
    | some (r, sh) =>
      (if onlyLeaves then [] else [(p, r, parent)]) ++
      match sh with
      | .struct members =>
        (members.map (fun kv => mapShapeG g d (p ++ [Seg.field kv.1]) (some kv.2) (some r) onlyLeaves)).flatten
      | .list m => mapShapeG g d (p ++ [Seg.iterate]) (some m) (some r) onlyLeaves
      | .map v => mapShapeG g d (p ++ [Seg.iterate]) (some v) (some r) onlyLeaves
      | .strEnum _ => if onlyLeaves then [(p, r, parent)] else []
      | .scalar tn => if onlyLeaves && leafScalarNames.contains tn then [(p, r, parent)] else []

/-- OutputPath.from_shape over a shape graph, with the source defaults. -/
def fromShapeG (g : ShapeGraph) (s : String) : List (OutputPathT × String × Option String) :=
  mapShapeG g 10 [] (some s) none true

/-- Claim C10: map_shape is total for every shape graph because max_depth
strictly decreases on each recursive step (the definition is structural on
it); every path yielded from a start path p within fuel d has length below
p.length + d, hence every from_shape path has at most 10 segments and leaves
nested deeper than that are never enumerated; and from_shape terminates with
a finite (here empty) result even on a cyclic shape graph. -/
theorem mapShapeG_depth_bound :
    (∀ (g : ShapeGraph) (d : Nat) (p : OutputPathT) (r parent : Option String) (ol : Bool)
        (q : OutputPathT) (x : String) (px : Option String),
        (q, x, px) ∈ mapShapeG g d p r parent ol → q.length < p.length + d) ∧
    (∀ (g : ShapeGraph) (s : String) (q : OutputPathT) (x : String) (px : Option String),
        (q, x, px) ∈ fromShapeG g s → q.length ≤ 10) ∧
    fromShapeG [("A", GShape.list "A")] "A" = [] := by
  have main : ∀ (g : ShapeGraph) (d : Nat) (p : OutputPathT) (r parent : Option String)
      (ol : Bool) (q : OutputPathT) (x : String) (px : Option String),
      (q, x, px) ∈ mapShapeG g d p r parent ol → q.length < p.length + d := by
    intro g d
    induction d with
    | zero => intro p r parent ol q x px h; simp [mapShapeG] at h
    | succ n ih =>
      intro p r parent ol q x px h
      rw [mapShapeG] at h
      cases hr : r.bind (fun rr => (g.lookup rr).map (fun sh => (rr, sh))) with
      | none => rw [hr] at h; simp at h
      | some rsh =>
        rw [hr] at h
        obtain ⟨rr, sh⟩ := rsh
        simp only [List.mem_append] at h
        rcases h with h | h
        · by_cases hol : ol
          · simp [hol] at h
          · simp [hol] at h
            obtain ⟨hq, _⟩ := h
            subst hq
            omega
        · cases sh with
          | struct members =>
            simp only [List.mem_flatten, List.mem_map] at h
            obtain ⟨l, ⟨kv, _, hmk⟩, hql⟩ := h
            subst hmk
            have := ih (p ++ [Seg.field kv.1]) (some kv.2) (some rr) ol q x px hql
            simp at this
            omega
          | list m =>
            have := ih (p ++ [Seg.iterate]) (some m) (some rr) ol q x px h
            simp at this
            omega
          | map v =>
            have := ih (p ++ [Seg.iterate]) (some v) (some rr) ol q x px h
            simp at this
            omega
          | strEnum e =>
            by_cases hol : ol
            · simp [hol] at h
              obtain ⟨hq, _⟩ := h
              subst hq
              omega
            · simp [hol] at h
          | scalar tn =>
            simp at h
            obtain ⟨-, hq, -⟩ := h
            subst hq
            omega
  refine ⟨main, ?_, rfl⟩
  intro g s q x px h
  have := main g 10 [] (some s) none true q x px h
  simp at this
  omega

/-- Witness for mapShapeG_depth_bound: a concrete two-node shape graph whose
single leaf path is enumerated and bounded by 10 segments. -/
theorem mapShapeG_depth_bound_witness :
    (([Seg.field "F"], "Str", some "S") ∈
      fromShapeG [("S", GShape.struct [("F", "Str")]), ("Str", GShape.strEnum [])] "S") ∧
    ([Seg.field "F"] : OutputPathT).length ≤ 10 :=
  ⟨by decide, mapShapeG_depth_bound.2.1 [("S", GShape.struct [("F", "Str")]), ("Str", GShape.strEnum [])]
    "S" [Seg.field "F"] "Str" (some "S") (by decide)⟩

/-! ## Persistent command server: request framing
(src/quick-aws/client.py and src/quick-aws/plugin.py)

The JSON payload is embedded as a list of values that are either an
environment map or a string; the client only ever sends those two forms. -/

inductive JVal where
  | obj (kv : List (String × String))
  | str (s : String)
  deriving DecidableEq

/-- src/quick-aws/client.py line 48: data = [dict(os.environ)] + sys.argv[1:].
The client's frame carries the environment map followed by the argument
vector; note that the client's working directory is NOT included. -/
def clientFrame (env : List (String × String)) (argvTail : List String) : List JVal :=
  JVal.obj env :: argvTail.map JVal.str

/-- What the worker does with a parsed request. -/
inductive WReq where
  | reload
  | run (env : List (String × String)) (cwd : String) (argv : List JVal)
  deriving DecidableEq

/-- src/quick-aws/plugin.py lines 146-163 (WorkerState._work, framing part):
assert a non-empty list; the special form with args[2] equal to "/reload"
signals a re-exec; otherwise pop the environment dict (asserting a dict),
pop the cwd (asserting a string, IndexError when absent), and the remainder
is the argv run by the driver. -/
def workerParse (args : List JVal) : Except String WReq :=
  if args.length < 1 then .error "arguments is not a non-empty list"
  else if 2 < args.length && args[2]? == some (JVal.str "/reload") then .ok .reload
  else
    match args with
    | JVal.obj env :: rest =>
      match rest with
      | JVal.str cwd :: argv => .ok (.run env cwd argv)
      | JVal.obj _ :: _ => .error "second argument should be a string of the cwd"
      | [] => .error "IndexError: pop from empty list"
    | _ => .error "first argument should be a dict of env vars"

/-- Claim C3 (code bug): the client builds its frame from the environment and
argv only and never sends its working directory, so the worker pops the
first command argument as the cwd and runs a truncated argv.  For the
client state env (K to V), cwd "/tmp", argv tail s3 ls, the worker observes
cwd "s3" and argv ls — not the client's cwd and argv.  The worker-side
parser itself round-trips the documented wire format (env, cwd, argv...),
third conjunct, so the omission is on the client side. -/
theorem workerParse_clientFrame_drops_cwd :
    workerParse (clientFrame [("K", "V")] ["s3", "ls"]) =
      .ok (.run [("K", "V")] "s3" [JVal.str "ls"]) ∧
    ("s3" : String) ≠ "/tmp" ∧
    workerParse (JVal.obj [("K", "V")] :: JVal.str "/tmp" :: [JVal.str "s3", JVal.str "ls"]) =
      .ok (.run [("K", "V")] "/tmp" [JVal.str "s3", JVal.str "ls"]) := by
  refine ⟨rfl, ?_, rfl⟩
  decide

/-! ## Persistent command server: worker-side scoped state
(src/quick-aws/plugin.py temp_set_environ lines 33-42, WorkerState.temp_dup_fd
lines 79-88, WorkerState._work lines 140-176)

Process state is the environment, the working directory and the descriptor
table mapping file descriptor numbers to kernel object identities; os.dup is
modelled as allocation at a fresh counter. -/

structure Proc where
  env : List (String × String)
  cwd : String
  fds : Nat → Option Nat
  next : Nat

/-- Write one slot of the descriptor table. -/
def setFd (p : Proc) (d : Nat) (v : Option Nat) : Proc :=
  { p with fds := fun x => if x = d then v else p.fds x }

/-- os.dup2(src, dest): dest now denotes the same kernel object as src. -/
def dup2 (p : Proc) (src dst : Nat) : Proc :=
  setFd p dst (p.fds src)

/-- os.dup(src): duplicate src at a fresh descriptor number. -/
def osDup (p : Proc) (src : Nat) : Nat × Proc :=
  (p.next, { setFd p p.next (p.fds src) with next := p.next + 1 })

/-- os.close(fd). -/
def closeFd (p : Proc) (f : Nat) : Proc :=
  setFd p f none

/-- The worker's per-process fd_cache of saved standard descriptors. -/
structure WState where
  cache : List (Nat × Nat)

/-- Entry half of WorkerState.temp_dup_fd (plugin.py lines 79-85): save the
original dest once per worker lifetime in fd_cache, then dup2 src onto dest.
Returns the saved descriptor used by the exit half. -/
def enterDup (w : WState) (p : Proc) (src dst : Nat) : WState × Proc × Nat :=
  match w.cache.lookup dst with
  | some sv => (w, dup2 p src dst, sv)
  | none =>
    let (sv, p1) := osDup p dst
    (⟨w.cache ++ [(dst, sv)]⟩, dup2 p1 src dst, sv)

/-- Exit half of temp_dup_fd (plugin.py lines 87-88): dup2 the saved
descriptor back onto dest. -/
def exitDup (p : Proc) (sv dst : Nat) : Proc :=
  dup2 p sv dst

/-- WorkerState._work (plugin.py lines 140-176) restricted to the scoped
state it manipulates, with the ExitStack unwound in reverse entry order:
close callbacks for the three received descriptors are registered first,
then temp_dup_fd for fds 0, 1, 2, stdio flushes (no modelled state), then
temp_set_environ (full copy, clear and update, restore in finally) and
contextlib.chdir.  The request body runs in the middle and may change the
environment, the cwd and the standard descriptors arbitrarily; it stands for
both a normal return and an exception unwinding the stack. -/
def workRequest (body : Proc → Proc) (reqEnv : List (String × String)) (reqCwd : String)
    (f0 f1 f2 : Nat) (w : WState) (p : Proc) : WState × Proc :=
  let e0 := enterDup w p f0 0
  let e1 := enterDup e0.1 e0.2.1 f1 1
  let e2 := enterDup e1.1 e1.2.1 f2 2
  let savedEnv := e2.2.1.env
  let p4 := { e2.2.1 with env := reqEnv }
  let savedCwd := p4.cwd
  let p5 := { p4 with cwd := reqCwd }
  let p6 := body p5
  let p7 := { p6 with cwd := savedCwd }
  let p8 := { p7 with env := savedEnv }
  let p9 := exitDup p8 e2.2.2 2
  let p10 := exitDup p9 e1.2.2 1
  let p11 := exitDup p10 e0.2.2 0
  (e2.1, closeFd (closeFd (closeFd p11 f2) f1) f0)

theorem lookup_append_single (l : List (Nat × Nat)) (d sv k : Nat) (hne : k ≠ d) :
    (l ++ [(d, sv)]).lookup k = l.lookup k := by
  induction l with
  | nil =>
    have : (k == d) = false := beq_false_of_ne hne
    simp [List.lookup, this]
  | cons a l ih =>
    cases a with
    | mk a1 a2 =>
      simp only [List.cons_append, List.lookup]
      cases h : (k == a1) <;> simp [h, ih]

/-- What one entry of temp_dup_fd guarantees: the saved descriptor is above
the standard three and below the new allocation limit, it now denotes the
kernel object that dest denoted on entry, the allocation counter grows by at
most one, environment and cwd are untouched, descriptors other than dest
below the old limit are untouched and cache entries for other descriptors
are unchanged. -/
theorem enterDup_fds (w : WState) (p : Proc) (src dst : Nat)
    (hnext : 2 < p.next) (hdst : dst < 3)
    (hdstc : ∀ sv, w.cache.lookup dst = some sv →
      p.fds sv = p.fds dst ∧ 2 < sv ∧ sv < p.next) :
    2 < (enterDup w p src dst).2.2 ∧
    (enterDup w p src dst).2.2 < (enterDup w p src dst).2.1.next ∧
    (enterDup w p src dst).2.1.fds (enterDup w p src dst).2.2 = p.fds dst ∧
    p.next ≤ (enterDup w p src dst).2.1.next ∧
    (enterDup w p src dst).2.1.env = p.env ∧
    (enterDup w p src dst).2.1.cwd = p.cwd ∧
    (∀ x, x ≠ dst → x < p.next → (enterDup w p src dst).2.1.fds x = p.fds x) ∧
    (∀ d, d ≠ dst → (enterDup w p src dst).1.cache.lookup d = w.cache.lookup d) := by
  cases hl : w.cache.lookup dst with
  | some sv =>
    obtain ⟨hsave, hgt, hlt⟩ := hdstc sv hl
    simp only [enterDup, hl, dup2, setFd]
    refine ⟨hgt, hlt, ?_, le_refl _, trivial, trivial, ?_, ?_⟩
    · rw [if_neg (show ¬ sv = dst by omega)]
      exact hsave
    · intro x hx _
      rw [if_neg hx]
    · intro d _
      trivial
  | none =>
    simp only [enterDup, hl, osDup, dup2, setFd]
    refine ⟨hnext, by omega, ?_, by omega, trivial, trivial, ?_, ?_⟩
    · rw [if_neg (show ¬ p.next = dst by omega)]
      simp
    · intro x hx hxlt
      rw [if_neg hx, if_neg (show ¬ x = p.next by omega)]
    · intro d hd
      exact lookup_append_single w.cache dst p.next d hd

/-- Claim C7: after the worker finishes a request, normally or through an
exception unwinding the ExitStack, the process environment and working
directory equal their pre-request values and descriptors 0, 1 and 2 denote
the same kernel objects as before the request.  The request body may rewrite
the environment, the cwd and the standard descriptors arbitrarily; the
hypotheses say only that it leaves descriptors above 2 alone, that cached
saved descriptors are consistent copies sitting between 3 and the allocation
limit, and that the three received client descriptors are above 2. -/
theorem worker_scoped_state_restored
    (body : Proc → Proc) (reqEnv : List (String × String)) (reqCwd : String)
    (f0 f1 f2 : Nat) (w : WState) (p : Proc)
    (hnext : 2 < p.next)
    (hcache : ∀ d sv, w.cache.lookup d = some sv →
      p.fds sv = p.fds d ∧ 2 < sv ∧ sv < p.next)
    (hbody : ∀ q fd, 2 < fd → (body q).fds fd = q.fds fd)
    (hf0 : 2 < f0) (hf1 : 2 < f1) (hf2 : 2 < f2) :
    (workRequest body reqEnv reqCwd f0 f1 f2 w p).2.env = p.env ∧
    (workRequest body reqEnv reqCwd f0 f1 f2 w p).2.cwd = p.cwd ∧
    (workRequest body reqEnv reqCwd f0 f1 f2 w p).2.fds 0 = p.fds 0 ∧
    (workRequest body reqEnv reqCwd f0 f1 f2 w p).2.fds 1 = p.fds 1 ∧
    (workRequest body reqEnv reqCwd f0 f1 f2 w p).2.fds 2 = p.fds 2 := by
  obtain ⟨g0, l0, s0save, n0, e0env, e0cwd, f0frame, c0pres⟩ :=
    enterDup_fds w p f0 0 hnext (by omega) (fun sv h => hcache 0 sv h)
  set e0 := enterDup w p f0 0 with he0
  have hnext1 : 2 < e0.2.1.next := by omega
  have hc1 : ∀ sv, e0.1.cache.lookup 1 = some sv →
      e0.2.1.fds sv = e0.2.1.fds 1 ∧ 2 < sv ∧ sv < e0.2.1.next := by
    intro sv h
    rw [c0pres 1 (by omega)] at h
    obtain ⟨hsave, hgt, hlt⟩ := hcache 1 sv h
    exact ⟨by rw [f0frame sv (by omega) hlt, f0frame 1 (by omega) (by omega), hsave],
      hgt, by omega⟩
  obtain ⟨g1, l1, s1save', n1, e1env, e1cwd, f1frame, c1pres⟩ :=
    enterDup_fds e0.1 e0.2.1 f1 1 hnext1 (by omega) hc1
  set e1 := enterDup e0.1 e0.2.1 f1 1 with he1
  have hnext2 : 2 < e1.2.1.next := by omega
  have hc2 : ∀ sv, e1.1.cache.lookup 2 = some sv →
      e1.2.1.fds sv = e1.2.1.fds 2 ∧ 2 < sv ∧ sv < e1.2.1.next := by
    intro sv h
    rw [c1pres 2 (by omega), c0pres 2 (by omega)] at h
    obtain ⟨hsave, hgt, hlt⟩ := hcache 2 sv h
    refine ⟨?_, hgt, by omega⟩
    rw [f1frame sv (by omega) (by omega), f0frame sv (by omega) hlt,
      f1frame 2 (by omega) (by omega), f0frame 2 (by omega) (by omega), hsave]
  obtain ⟨g2, l2, s2save', n2, e2env, e2cwd, f2frame, c2pres⟩ :=
    enterDup_fds e1.1 e1.2.1 f2 2 hnext2 (by omega) hc2
  set e2 := enterDup e1.1 e1.2.1 f2 2 with he2
  have s0q2 : e2.2.1.fds e0.2.2 = p.fds 0 := by
    rw [f2frame e0.2.2 (by omega) (by omega), f1frame e0.2.2 (by omega) (by omega), s0save]
  have s1q2 : e2.2.1.fds e1.2.2 = p.fds 1 := by
    rw [f2frame e1.2.2 (by omega) (by omega), s1save', f0frame 1 (by omega) (by omega)]
  have s2q2 : e2.2.1.fds e2.2.2 = p.fds 2 := by
    rw [s2save', f1frame 2 (by omega) (by omega), f0frame 2 (by omega) (by omega)]
  have hb0 : (body { { e2.2.1 with env := reqEnv } with cwd := reqCwd }).fds e0.2.2 = p.fds 0 := by
    rw [hbody _ _ g0]
    exact s0q2
  have hb1 : (body { { e2.2.1 with env := reqEnv } with cwd := reqCwd }).fds e1.2.2 = p.fds 1 := by
    rw [hbody _ _ g1]
    exact s1q2
  have hb2 : (body { { e2.2.1 with env := reqEnv } with cwd := reqCwd }).fds e2.2.2 = p.fds 2 := by
    rw [hbody _ _ g2]
    exact s2q2
  simp only [workRequest]
  rw [← he0, ← he1, ← he2]
  simp only [exitDup, dup2, setFd, closeFd]
  refine ⟨?_, ?_, ?_, ?_, ?_⟩
  · show e2.2.1.env = p.env
    rw [e2env, e1env, e0env]
  · show e2.2.1.cwd = p.cwd
    rw [e2cwd, e1cwd, e0cwd]
  · simp only [if_neg (show ¬ (0 : Nat) = f0 by omega), if_neg (show ¬ (0 : Nat) = f1 by omega),
      if_neg (show ¬ (0 : Nat) = f2 by omega), if_pos (rfl : (0 : Nat) = 0),
      if_neg (show ¬ e0.2.2 = 1 by omega), if_neg (show ¬ e0.2.2 = 2 by omega)]
    exact hb0
  · simp only [if_neg (show ¬ (1 : Nat) = f0 by omega), if_neg (show ¬ (1 : Nat) = f1 by omega),
      if_neg (show ¬ (1 : Nat) = f2 by omega), if_neg (show ¬ (1 : Nat) = 0 by omega),
      if_pos (rfl : (1 : Nat) = 1), if_neg (show ¬ e1.2.2 = 2 by omega)]
    exact hb1
  · simp only [if_neg (show ¬ (2 : Nat) = f0 by omega), if_neg (show ¬ (2 : Nat) = f1 by omega),
      if_neg (show ¬ (2 : Nat) = f2 by omega), if_neg (show ¬ (2 : Nat) = 0 by omega),
      if_neg (show ¬ (2 : Nat) = 1 by omega), if_pos (rfl : (2 : Nat) = 2)]
    exact hb2

/-- Witness for worker_scoped_state_restored at a concrete worker state and
request body. -/
theorem worker_scoped_state_restored_witness :
    (workRequest (fun q => { q with env := [], cwd := "/t" }) [("K", "V")] "/tmp" 3 4 3 ⟨[]⟩
        ⟨[("A", "1")], "/", (fun n => if n < 5 then some n else none), 5⟩).2.env = [("A", "1")] ∧
    (workRequest (fun q => { q with env := [], cwd := "/t" }) [("K", "V")] "/tmp" 3 4 3 ⟨[]⟩
        ⟨[("A", "1")], "/", (fun n => if n < 5 then some n else none), 5⟩).2.cwd = "/" ∧
    (workRequest (fun q => { q with env := [], cwd := "/t" }) [("K", "V")] "/tmp" 3 4 3 ⟨[]⟩
        ⟨[("A", "1")], "/", (fun n => if n < 5 then some n else none), 5⟩).2.fds 0 = some 0 ∧
    (workRequest (fun q => { q with env := [], cwd := "/t" }) [("K", "V")] "/tmp" 3 4 3 ⟨[]⟩
        ⟨[("A", "1")], "/", (fun n => if n < 5 then some n else none), 5⟩).2.fds 1 = some 1 ∧
    (workRequest (fun q => { q with env := [], cwd := "/t" }) [("K", "V")] "/tmp" 3 4 3 ⟨[]⟩
        ⟨[("A", "1")], "/", (fun n => if n < 5 then some n else none), 5⟩).2.fds 2 = some 2 :=
  worker_scoped_state_restored
    (fun q => { q with env := [], cwd := "/t" }) [("K", "V")] "/tmp" 3 4 3 ⟨[]⟩
    ⟨[("A", "1")], "/", (fun n => if n < 5 then some n else none), 5⟩
    (by decide)
    (by intro d sv hsv; simp [List.lookup] at hsv)
    (fun q fd hfd => rfl)
    (by omega) (by omega) (by omega)

/-! ## The grabber argument model (src/grabber/arg.py, src/grabber/method.py)

Scores are Python tuples of integers or the single negative-infinity tuple;
they are embedded as lists over the integers with bottom adjoined, compared
lexicographically exactly as Python compares tuples (a strict prefix sorts
first, bottom below every integer).

The Arg variants are flattened into a single inductive: a MethodCall or
LazyMethodCall argument carries the method record and binding list inline,
and a (Lazy)MethodCallOutput carries its call's fields inline.  Args, a
Python frozenset of (name, Arg) pairs whose members are compared by object
identity, is embedded as the association list of its bindings in iteration
order; frozenset equality is modelled by structural list equality, which
coincides with the Python behaviour on the canonical construction order used
by the planner. -/

abbrev Score := List (WithBot ℤ)

/-- A method record: what src/grabber/method.py Method.__init__ (lines 9-21)
extracts from the botocore operation model -- the method name, the input
shape and the output shape tree. -/
structure SMeth where
  name : String
  input : Option Shape
  output : Option Shape

/-- Method.path (method.py line 14): the verb-stripped name tokens prepared
for scoring. -/
def methPath (m : SMeth) : List String :=
  prepareForScoring (String.intercalate " "
    (((splitOnCharGo '_' [] m.name.data).map String.mk).drop 1))

/-- Method.requires (method.py lines 16-19): the required input members in
required_members order, resolved against the input structure members; empty
when there is no input shape or no required member. -/
def requiresOf (m : SMeth) : List (String × Shape) :=
  match m.input with
  | some (Shape.struct members required) =>
    required.filterMap (fun k => (members.lookup k).map (fun sh => (k, sh)))
  | _ => []

/-- Method.requires_keys (method.py line 21): the without-format KeySpec of
each required member name. -/
def requiresKeysOf (m : SMeth) : Finset (List String) :=
  ((requiresOf m).map (fun kv => withoutFormat (keySpecMake kv.1 none))).toFinset

mutual
inductive Arg where
  /-- StaticArg (arg.py lines 10-14). -/
  | static (v : Value)
  /-- Modelled from the spec: MultiArg, the enumerated-options argument
  produced from an enum shape.  service.py line 91 imports MultiArg from
  .arg but src/grabber/arg.py does not define it; following the spec's
  "Multi(values) -- enumerated options (from an enum shape)" it is a
  holder of the enum's values. -/
  | multi (vals : List String)
  /-- MethodCall (method.py lines 79-96), flattened: method and resolved args. -/
  | mcall (m : SMeth) (args : List (String × Arg))
  /-- LazyMethodCall (method.py lines 99-109), flattened. -/
  | lazyCall (m : SMeth) (args : List (String × Arg)) (excluded : Finset String)
      (usedKeys : Finset (List String))
  /-- MethodCallOutput (method.py lines 145-157) with its MethodCall inline:
  method, resolved args, output path, method score, path score, shape. -/
  | callOutput (m : SMeth) (cargs : List (String × Arg)) (path : OutputPathT)
      (ms ps : Score) (shape : Option Shape)
  /-- LazyMethodCallOutput (method.py lines 137-143) with its LazyMethodCall
  inline: method, args, excluded methods, used keys, then output path,
  method score, path score, shape. -/
  | lazyOutput (m : SMeth) (args : List (String × Arg)) (excluded : Finset String)
      (usedKeys : Finset (List String)) (path : OutputPathT) (ms ps : Score)
      (shape : Option Shape)
end

abbrev Args := List (String × Arg)

/-- BaseMethodCallOutput.__init__ (method.py lines 115-121): a missing score
becomes the single negative-infinity tuple. -/
def scoreOr (s : Option (List ℤ)) : Score :=
  match s with
  | none => [⊥]
  | some l => l.map (fun z => (z : WithBot ℤ))

/-- Args.used_methods (src/grabber/arg.py lines 33-38): the empty set for the
empty binding set, otherwise the union over the resolved MethodCallOutput
members of the used methods of their call's args.  The invoked method itself
is never added, so the union bottoms out empty.  The fuel bounds the Python
recursion depth over the finite object graph. -/
def usedMethodsF : Nat → Args → Finset String
  | 0, _ => ∅
  | fuel + 1, a =>
    if a.isEmpty then ∅
    else
      (a.filterMap (fun kv =>
        match kv.2 with
        | Arg.callOutput _ cargs _ _ _ _ => some (usedMethodsF fuel cargs)
        | _ => none)).foldl (fun acc s => acc ∪ s) ∅

/-- Args.used_methods at the canonical recursion budget. -/
def usedMethodsC (a : Args) : Finset String :=
  usedMethodsF 64 a

/-- Args.complexity_score (arg.py lines 40-43): one plus the sum over the
resolved MethodCallOutput members of their call's args' complexity. -/
def complexityF : Nat → Args → ℤ
  | 0, _ => 1
  | fuel + 1, a =>
    1 + (a.filterMap (fun kv =>
      match kv.2 with
      | Arg.callOutput _ cargs _ _ _ _ => some (complexityF fuel cargs)
      | _ => none)).foldl (· + ·) 0

def complexityC (a : Args) : ℤ :=
  complexityF 64 a

theorem usedMethodsF_empty (fuel : Nat) : ∀ a : Args, usedMethodsF fuel a = ∅ := by
  induction fuel with
  | zero => intro a; rfl
  | succ n ih =>
    intro a
    rw [usedMethodsF]
    by_cases h : a.isEmpty
    · rw [if_pos h]
    · rw [if_neg h]
      have : ∀ l : List (Finset String), (∀ s ∈ l, s = ∅) →
          l.foldl (fun acc s => acc ∪ s) ∅ = ∅ := by
        intro l
        induction l with
        | nil => intro _; rfl
        | cons x xs ihx =>
          intro hall
          have hx : x = ∅ := hall x (by simp)
          simp only [List.foldl, hx, Finset.union_empty, Finset.empty_union]
          exact ihx (fun s hs => hall s (by simp [hs]))
      apply this
      intro s hs
      simp only [List.mem_filterMap] at hs
      obtain ⟨kv, _, hkv⟩ := hs
      rcases kv with ⟨k, v⟩
      cases v with
      | static w => simp at hkv
      | multi vals => simp at hkv
      | mcall m args => simp at hkv
      | lazyCall m args ex uk => simp at hkv
      | lazyOutput m args ex uk path msc psc sh => simp at hkv
      | callOutput m cargs path msc psc sh =>
        simp at hkv
        rw [← hkv]
        exact ih cargs

/-- Claim C5 (code bug): used_methods never records the invoked method --
it only unions the recursive used_methods of nested calls' args, so by
induction it is empty for every binding set; in particular an Args holding a
resolved MethodCallOutput that invokes get_a does not contain get_a. -/
theorem usedMethods_always_empty :
    (∀ a : Args, usedMethodsC a = ∅) ∧
    usedMethodsC [("X", Arg.callOutput ⟨"get_a", none, none⟩ [] [Seg.field "A"]
      [(1 : ℤ)] [(1 : ℤ)] none)] = ∅ ∧
    "get_a" ∉ usedMethodsC [("X", Arg.callOutput ⟨"get_a", none, none⟩ [] [Seg.field "A"]
      [(1 : ℤ)] [(1 : ℤ)] none)] := by
  refine ⟨fun a => usedMethodsF_empty 64 a, usedMethodsF_empty 64 _, ?_⟩
  simp [usedMethodsC, usedMethodsF_empty 64]

/-! ## Structural equality tests

Python compares cache keys with ==; the embedded equality tests recurse with
fuel over the nested object graph and are sound: a true answer implies
structural equality (a fuel miss merely reports inequality, which for a
cache only causes a harmless re-computation). -/

def beqListBy (p : α → α → Bool) : List α → List α → Bool
  | [], [] => true
  | a :: as, b :: bs => p a b && beqListBy p as bs
  | _, _ => false

theorem beqListBy_sound {p : α → α → Bool} (hp : ∀ a b, p a b = true → a = b) :
    ∀ l1 l2, beqListBy p l1 l2 = true → l1 = l2 := by
  intro l1
  induction l1 with
  | nil => intro l2 h; cases l2 with
    | nil => rfl
    | cons b bs => simp [beqListBy] at h
  | cons a as ih =>
    intro l2 h
    cases l2 with
    | nil => simp [beqListBy] at h
    | cons b bs =>
      simp only [beqListBy, Bool.and_eq_true] at h
      rw [hp a b h.1, ih bs h.2]

def beqValue : Nat → Value → Value → Bool
  | 0, _, _ => false
  | f + 1, a, b =>
    match a, b with
    | .obj fa, .obj fb => beqListBy (fun x y => x.1 == y.1 && beqValue f x.2 y.2) fa fb
    | .arr ea, .arr eb => beqListBy (beqValue f) ea eb
    | .str sa, .str sb => sa == sb
    | .int na, .int nb => na == nb
    | _, _ => false

theorem beqValue_sound : ∀ (f : Nat) (a b : Value), beqValue f a b = true → a = b := by
  intro f
  induction f with
  | zero => intro a b h; simp [beqValue] at h
  | succ n ih =>
    intro a b h
    cases a <;> cases b <;> try (exfalso; revert h; simp [beqValue]; done)
    · rename_i fa fb
      simp only [beqValue] at h
      have := beqListBy_sound (p := fun x y => x.1 == y.1 && beqValue n x.2 y.2)
        (fun x y hxy => by
          simp only [Bool.and_eq_true, beq_iff_eq] at hxy
          cases x; cases y
          simp only [Prod.mk.injEq]
          exact ⟨hxy.1, ih _ _ hxy.2⟩) fa fb h
      rw [this]
    · rename_i ea eb
      simp only [beqValue] at h
      rw [beqListBy_sound (fun x y hxy => ih x y hxy) ea eb h]
    · rename_i sa sb
      simp only [beqValue] at h
      rw [eq_of_beq h]
    · rename_i na nb
      simp only [beqValue] at h
      rw [eq_of_beq h]

def beqShape : Nat → Shape → Shape → Bool
  | 0, _, _ => false
  | f + 1, a, b =>
    match a, b with
    | .struct ma ra, .struct mb rb =>
      beqListBy (fun x y => x.1 == y.1 && beqShape f x.2 y.2) ma mb && ra == rb
    | .list sa, .list sb => beqShape f sa sb
    | .map sa, .map sb => beqShape f sa sb
    | .strEnum ea, .strEnum eb => ea == eb
    | .scalar ta, .scalar tb => ta == tb
    | _, _ => false

theorem beqShape_sound : ∀ (f : Nat) (a b : Shape), beqShape f a b = true → a = b := by
  intro f
  induction f with
  | zero => intro a b h; simp [beqShape] at h
  | succ n ih =>
    intro a b h
    cases a <;> cases b <;> try (exfalso; revert h; simp [beqShape]; done)
    · rename_i ma ra mb rb
      simp only [beqShape, Bool.and_eq_true, beq_iff_eq] at h
      have := beqListBy_sound (p := fun x y => x.1 == y.1 && beqShape n x.2 y.2)
        (fun x y hxy => by
          simp only [Bool.and_eq_true, beq_iff_eq] at hxy
          cases x; cases y
          simp only [Prod.mk.injEq]
          exact ⟨hxy.1, ih _ _ hxy.2⟩) ma mb h.1
      rw [this, h.2]
    · rename_i sa sb
      simp only [beqShape] at h
      rw [ih sa sb h]
    · rename_i sa sb
      simp only [beqShape] at h
      rw [ih sa sb h]
    · rename_i ea eb
      simp only [beqShape] at h
      rw [eq_of_beq h]
    · rename_i ta tb
      simp only [beqShape] at h
      rw [eq_of_beq h]

def beqOptShape (f : Nat) : Option Shape → Option Shape → Bool
  | none, none => true
  | some a, some b => beqShape f a b
  | _, _ => false

theorem beqOptShape_sound (f : Nat) : ∀ a b, beqOptShape f a b = true → a = b := by
  intro a b h
  cases a <;> cases b <;> simp_all [beqOptShape]
  exact beqShape_sound f _ _ h

def beqSMeth (f : Nat) (a b : SMeth) : Bool :=
  a.name == b.name && beqOptShape f a.input b.input && beqOptShape f a.output b.output

theorem beqSMeth_sound (f : Nat) (a b : SMeth) (h : beqSMeth f a b = true) : a = b := by
  simp only [beqSMeth, Bool.and_eq_true, beq_iff_eq] at h
  cases a; cases b
  simp only [SMeth.mk.injEq]
  exact ⟨h.1.1, beqOptShape_sound f _ _ h.1.2, beqOptShape_sound f _ _ h.2⟩

def beqArg : Nat → Arg → Arg → Bool
  | 0, _, _ => false
  | f + 1, a, b =>
    match a, b with
    | .static va, .static vb => beqValue (f + 1) va vb
    | .multi la, .multi lb => la == lb
    | .mcall ma aa, .mcall mb ab =>
      beqSMeth (f + 1) ma mb && beqListBy (fun x y => x.1 == y.1 && beqArg f x.2 y.2) aa ab
    | .lazyCall ma aa exa uka, .lazyCall mb ab exb ukb =>
      beqSMeth (f + 1) ma mb && beqListBy (fun x y => x.1 == y.1 && beqArg f x.2 y.2) aa ab &&
        decide (exa = exb) && decide (uka = ukb)
    | .callOutput ma aa pa msa psa sha, .callOutput mb ab pb msb psb shb =>
      beqSMeth (f + 1) ma mb && beqListBy (fun x y => x.1 == y.1 && beqArg f x.2 y.2) aa ab &&
        pa == pb && decide (msa = msb) && decide (psa = psb) && beqOptShape (f + 1) sha shb
    | .lazyOutput ma aa exa uka pa msa psa sha, .lazyOutput mb ab exb ukb pb msb psb shb =>
      beqSMeth (f + 1) ma mb && beqListBy (fun x y => x.1 == y.1 && beqArg f x.2 y.2) aa ab &&
        decide (exa = exb) && decide (uka = ukb) &&
        pa == pb && decide (msa = msb) && decide (psa = psb) && beqOptShape (f + 1) sha shb
    | _, _ => false

theorem beqArg_sound : ∀ (f : Nat) (a b : Arg), beqArg f a b = true → a = b := by
  intro f
  induction f with
  | zero => intro a b h; simp [beqArg] at h
  | succ n ih =>
    have hpair : ∀ x y : String × Arg, (x.1 == y.1 && beqArg n x.2 y.2) = true → x = y := by
      intro x y hxy
      simp only [Bool.and_eq_true, beq_iff_eq] at hxy
      cases x; cases y
      simp only [Prod.mk.injEq]
      exact ⟨hxy.1, ih _ _ hxy.2⟩
    intro a b h
    cases a <;> cases b <;> try (exfalso; revert h; simp [beqArg]; done)
    · rename_i va vb
      simp only [beqArg] at h
      rw [beqValue_sound _ va vb h]
    · rename_i la lb
      simp only [beqArg] at h
      rw [eq_of_beq h]
    · rename_i ma aa mb ab
      simp only [beqArg, Bool.and_eq_true] at h
      rw [beqSMeth_sound _ ma mb h.1, beqListBy_sound hpair aa ab h.2]
    · rename_i ma aa exa uka mb ab exb ukb
      simp only [beqArg, Bool.and_eq_true, decide_eq_true_eq] at h
      rw [beqSMeth_sound _ ma mb h.1.1.1, beqListBy_sound hpair aa ab h.1.1.2, h.1.2, h.2]
    · rename_i ma aa pa msa psa sha mb ab pb msb psb shb
      simp only [beqArg, Bool.and_eq_true, decide_eq_true_eq, beq_iff_eq] at h
      rw [beqSMeth_sound _ ma mb h.1.1.1.1.1, beqListBy_sound hpair aa ab h.1.1.1.1.2,
        h.1.1.1.2, h.1.1.2, h.1.2, beqOptShape_sound _ _ _ h.2]
    · rename_i ma aa exa uka pa msa psa sha mb ab exb ukb pb msb psb shb
      simp only [beqArg, Bool.and_eq_true, decide_eq_true_eq, beq_iff_eq] at h
      rw [beqSMeth_sound _ ma mb h.1.1.1.1.1.1.1, beqListBy_sound hpair aa ab h.1.1.1.1.1.1.2,
        h.1.1.1.1.1.2, h.1.1.1.1.2, h.1.1.1.2, h.1.1.2, h.1.2, beqOptShape_sound _ _ _ h.2]

/-- Equality test on Args (the frozenset of bindings, in iteration order). -/
def beqArgs (f : Nat) (a b : Args) : Bool :=
  beqListBy (fun x y => x.1 == y.1 && beqArg f x.2 y.2) a b

theorem beqArgs_sound (f : Nat) (a b : Args) (h : beqArgs f a b = true) : a = b :=
  beqListBy_sound (fun x y hxy => by
    simp only [Bool.and_eq_true, beq_iff_eq] at hxy
    cases x; cases y
    simp only [Prod.mk.injEq]
    exact ⟨hxy.1, beqArg_sound f _ _ hxy.2⟩) a b h

/-! ## Execution with the page cache (src/grabber/arg.py Args.execute and the
spec-modelled MethodCallOutput.execute)

The paginated API is an oracle from (method name, resolved args) to the list
of raw response pages; the execute cache maps (method, args) keys to their
pages, with keys compared structurally as Python == does. -/

abbrev ECache := List ((String × Args) × List Value)

def ecLookup (st : ECache) (k : String × Args) : Option (List Value) :=
  (st.find? (fun e => e.1.1 == k.1 && beqArgs 64 e.1.2 k.2)).map (fun e => e.2)

/-- A cache state is consistent with the API oracle when every hit returns
exactly the oracle's pages for the queried key. -/
def Consistent (api : String → Args → List Value) (st : ECache) : Prop :=
  ∀ name a pages, ecLookup st (name, a) = some pages → pages = api name a

/-- itertools.product over a list of alternative lists, rightmost varying
fastest. -/
def cartProd : List (List α) → List (List α)
  | [] => [[]]
  | l :: ls => l.flatMap (fun x => (cartProd ls).map (fun c => x :: c))

/-- One paginated call per resolved binding set, memoised by (method, args):
a cache hit returns the cached pages, a miss calls the API and appends the
entry; each raw page is mapped through the output path to a page of scalar
values. -/
def runCombos (api : String → Args → List Value) (name : String) (path : OutputPathT) :
    List Args → ECache → List (List Value) × ECache
  | [], st => ([], st)
  | c :: cs, st =>
    let hit := ecLookup st (name, c)
    let pages := match hit with
      | some pages => pages
      | none => api name c
    let st₁ := match hit with
      | some _ => st
      | none => st ++ [((name, c), api name c)]
    let r := runCombos api name path cs st₁
    (pages.map (fun pg => (applyTo path pg).getD []) ++ r.1, r.2)

mutual
/-- Args.execute (src/grabber/arg.py lines 45-58): split the bindings into
keys and per-binding alternative lists via the keys/values loop, then yield
one binding set per element of the Cartesian product of the alternatives
(itertools.product order), zipped against the keys.  The fuel ticks once per
nesting level of calls inside arguments. -/
def argsExecute (api : String → Args → List Value) : Nat → Args → ECache →
    List Args × ECache
  | 0, _, st => ([], st)
  | fuel + 1, a, st =>
    let r := collectVals api fuel a st
    ((cartProd (r.1.map (fun kv => kv.2))).map
      (fun combo => (r.1.map (fun kv => kv.1)).zip combo), r.2)
termination_by fuel a st => (fuel, 0, 0)

/-- The keys/values loop of Args.execute (arg.py lines 47-55): a resolved
MethodCallOutput binding contributes one StaticArg per page of its
execution; any other binding contributes itself as the only alternative. -/
def collectVals (api : String → Args → List Value) : Nat → Args → ECache →
    List (String × List Arg) × ECache
  | _, [], st => ([], st)
  | fuel, (k, v) :: rest, st =>
    match v with
    | Arg.callOutput m cargs path _ _ _ =>
      let r1 := mcoExecute api fuel m cargs path st
      let r2 := collectVals api fuel rest r1.2
      ((k, r1.1.map (fun pg => Arg.static (Value.arr pg))) :: r2.1, r2.2)
    | _ =>
      let r2 := collectVals api fuel rest st
      ((k, [v]) :: r2.1, r2.2)
termination_by fuel a st => (fuel, 2, a.length)

/-- Modelled from the spec: MethodCallOutput.execute(cache).  The class in
src/grabber/method.py (lines 145-157) has no execute method even though
Args.execute (arg.py line 51) and the completion engine call it; following
spec section 4.5 it evaluates Call.method(args) by recursively executing
every CallOutput-typed argument (Cartesian product of multi-valued
arguments, via Args.execute), calls the paginated operation once per
resulting binding set with results cached by (method, args), and for each
page applies the output path, yielding one page of scalar values per raw
page. -/
def mcoExecute (api : String → Args → List Value) : Nat → SMeth → Args → OutputPathT →
    ECache → List (List Value) × ECache
  | fuel, m, cargs, path, st =>
    let r := argsExecute api fuel cargs st
    runCombos api m.name path r.1 r.2
termination_by fuel m cargs path st => (fuel, 1, 0)
end

mutual
/-- The cache-free denotation of Args.execute: the binding sets are the
Cartesian product (as a nested flat map) of each binding's alternatives. -/
def denCombos (api : String → Args → List Value) : Nat → Args → List Args
  | 0, _ => []
  | fuel + 1, a => denGo api fuel a
termination_by fuel a => (fuel, 0, 0)

def denGo (api : String → Args → List Value) : Nat → Args → List Args
  | _, [] => [[]]
  | fuel, (k, v) :: rest =>
    (match v with
     | Arg.callOutput m cargs path _ _ _ =>
       ((denCombos api fuel cargs).flatMap
         (fun c => (api m.name c).map (fun pg => (applyTo path pg).getD []))).map
         (fun pg => Arg.static (Value.arr pg))
     | _ => [v]).flatMap (fun x => (denGo api fuel rest).map (fun c2 => (k, x) :: c2))
termination_by fuel a => (fuel, 1, a.length)
end

/-- The cache-free denotation of MethodCallOutput.execute: one API call per
denoted binding set, each raw page mapped through the output path. -/
def denPages (api : String → Args → List Value) (fuel : Nat) (m : SMeth) (cargs : Args)
    (path : OutputPathT) : List (List Value) :=
  (denCombos api fuel cargs).flatMap
    (fun c => (api m.name c).map (fun pg => (applyTo path pg).getD []))

/-- The alternatives contributed by one binding in the denotation. -/
def denAlt (api : String → Args → List Value) (fuel : Nat) : Arg → List Arg
  | Arg.callOutput m cargs path _ _ _ =>
    (denPages api fuel m cargs path).map (fun pg => Arg.static (Value.arr pg))
  | v => [v]

theorem denGo_cons (api : String → Args → List Value) (fuel : Nat) (k : String) (v : Arg)
    (rest : Args) :
    denGo api fuel ((k, v) :: rest) =
      (denAlt api fuel v).flatMap (fun x => (denGo api fuel rest).map (fun c2 => (k, x) :: c2)) := by
  cases v <;> simp [denGo, denAlt, denPages]

/-- The denotation's nested flat map is the Cartesian product of the
per-binding alternatives zipped against the keys, i.e. exactly the shape of
the source's keys/values/product/zip loop. -/
theorem denGo_eq_cartProd (api : String → Args → List Value) (fuel : Nat) :
    ∀ a : Args, denGo api fuel a =
      (cartProd (a.map (fun kv => denAlt api fuel kv.2))).map
        (fun combo => (a.map Prod.fst).zip combo) := by
  intro a
  induction a with
  | nil => simp [denGo, cartProd]
  | cons kv rest ih =>
    cases kv with
    | mk k v =>
      rw [denGo_cons]
      simp only [List.map_cons, cartProd]
      rw [List.map_flatMap]
      congr 1
      funext x
      rw [ih, List.map_map, List.map_map]
      rfl

theorem consistent_nil (api : String → Args → List Value) : Consistent api [] := by
  intro name a pages h
  simp [ecLookup, List.find?] at h

def optOr (a b : Option α) : Option α :=
  match a with
  | some x => some x
  | none => b

theorem find?_append_opt (p : α → Bool) (l : List α) (e : α) :
    (l ++ [e]).find? p = optOr (l.find? p) ([e].find? p) := by
  induction l with
  | nil => cases hp : [e].find? p <;> simp [hp, optOr]
  | cons a as ih =>
    cases hp : p a with
    | false =>
      rw [List.cons_append, List.find?_cons_of_neg (as ++ [e]) (by simp [hp]),
        List.find?_cons_of_neg as (by simp [hp]), ih]
    | true =>
      rw [List.cons_append, List.find?_cons_of_pos (as ++ [e]) hp,
        List.find?_cons_of_pos as hp]
      simp [optOr]

theorem ecLookup_append (st : ECache) (e : (String × Args) × List Value)
    (k : String × Args) :
    ecLookup (st ++ [e]) k = optOr (ecLookup st k) (ecLookup [e] k) := by
  simp only [ecLookup, find?_append_opt]
  cases hf : st.find? (fun x => x.1.1 == k.1 && beqArgs 64 x.1.2 k.2) <;> simp [hf, optOr]

theorem consistent_push (api : String → Args → List Value) (st : ECache) (name : String)
    (c : Args) (h : Consistent api st) :
    Consistent api (st ++ [((name, c), api name c)]) := by
  intro name' a' pages hl
  rw [ecLookup_append] at hl
  cases hst : ecLookup st (name', a') with
  | some pg =>
    rw [hst] at hl
    simp only [optOr] at hl
    injection hl with hl2
    rw [← hl2]
    exact h name' a' pg hst
  | none =>
    rw [hst] at hl
    simp only [optOr] at hl
    simp only [ecLookup, List.find?] at hl
    cases hb : (((name, c), api name c).1.1 == (name', a').1 &&
        beqArgs 64 (((name, c), api name c)).1.2 (name', a').2) with
    | false => rw [hb] at hl; simp at hl
    | true =>
      rw [hb] at hl
      simp only [Option.map_some] at hl
      have hn : name = name' := eq_of_beq (Bool.and_elim_left hb)
      have hc : c = a' := beqArgs_sound 64 _ _ (Bool.and_elim_right hb)
      subst hn
      subst hc
      injection hl with hl2
      exact hl2.symm

theorem runCombos_spec (api : String → Args → List Value) (name : String) (path : OutputPathT) :
    ∀ (combos : List Args) (st : ECache), Consistent api st →
      (runCombos api name path combos st).1 =
        combos.flatMap (fun c => (api name c).map (fun pg => (applyTo path pg).getD [])) ∧
      Consistent api (runCombos api name path combos st).2 := by
  intro combos
  induction combos with
  | nil => intro st h; exact ⟨rfl, h⟩
  | cons c cs ih =>
    intro st h
    simp only [runCombos]
    cases hit : ecLookup st (name, c) with
    | some pages =>
      have hp : pages = api name c := h name c pages hit
      obtain ⟨h1, h2⟩ := ih st h
      refine ⟨?_, h2⟩
      simp only [List.flatMap_cons]
      rw [h1, hp]
    | none =>
      have hcons := consistent_push api st name c h
      obtain ⟨h1, h2⟩ := ih _ hcons
      refine ⟨?_, h2⟩
      simp only [List.flatMap_cons]
      rw [h1]

/-- The statement relating Args.execute with its cache-free denotation at a
given fuel. -/
def ArgsExecOk (api : String → Args → List Value) (fuel : Nat) : Prop :=
  ∀ (a : Args) (st : ECache), Consistent api st →
    (argsExecute api fuel a st).1 = denCombos api fuel a ∧
    Consistent api (argsExecute api fuel a st).2

theorem mco_spec_of_args (api : String → Args → List Value) (fuel : Nat)
    (hP : ArgsExecOk api fuel) :
    ∀ (m : SMeth) (cargs : Args) (path : OutputPathT) (st : ECache), Consistent api st →
      (mcoExecute api fuel m cargs path st).1 = denPages api fuel m cargs path ∧
      Consistent api (mcoExecute api fuel m cargs path st).2 := by
  intro m cargs path st h
  obtain ⟨h1, h2⟩ := hP cargs st h
  obtain ⟨h3, h4⟩ := runCombos_spec api m.name path (argsExecute api fuel cargs st).1
    (argsExecute api fuel cargs st).2 h2
  simp only [mcoExecute]
  refine ⟨?_, h4⟩
  rw [h3, h1]
  rfl

theorem collect_spec_of_mco (api : String → Args → List Value) (fuel : Nat)
    (hR : ∀ (m : SMeth) (cargs : Args) (path : OutputPathT) (st : ECache), Consistent api st →
      (mcoExecute api fuel m cargs path st).1 = denPages api fuel m cargs path ∧
      Consistent api (mcoExecute api fuel m cargs path st).2) :
    ∀ (a : Args) (st : ECache), Consistent api st →
      (collectVals api fuel a st).1 = a.map (fun kv => (kv.1, denAlt api fuel kv.2)) ∧
      Consistent api (collectVals api fuel a st).2 := by
  intro a
  induction a with
  | nil =>
    intro st h
    refine ⟨by simp [collectVals], ?_⟩
    simpa [collectVals] using h
  | cons kv rest ih =>
    intro st h
    cases kv with
    | mk k v =>
      cases v with
      | callOutput m cargs path msc psc sh =>
        simp only [collectVals]
        obtain ⟨h1, h2⟩ := hR m cargs path st h
        obtain ⟨h3, h4⟩ := ih _ h2
        refine ⟨?_, h4⟩
        rw [h1, h3]
        rfl
      | static w =>
        simp only [collectVals]
        obtain ⟨h3, h4⟩ := ih st h
        refine ⟨?_, h4⟩
        rw [h3]
        rfl
      | multi vals =>
        simp only [collectVals]
        obtain ⟨h3, h4⟩ := ih st h
        refine ⟨?_, h4⟩
        rw [h3]
        rfl
      | mcall m args =>
        simp only [collectVals]
        obtain ⟨h3, h4⟩ := ih st h
        refine ⟨?_, h4⟩
        rw [h3]
        rfl
      | lazyCall m args ex uk =>
        simp only [collectVals]
        obtain ⟨h3, h4⟩ := ih st h
        refine ⟨?_, h4⟩
        rw [h3]
        rfl
      | lazyOutput m args ex uk path msc psc sh =>
        simp only [collectVals]
        obtain ⟨h3, h4⟩ := ih st h
        refine ⟨?_, h4⟩
        rw [h3]
        rfl

theorem args_succ_spec (api : String → Args → List Value) (fuel : Nat)
    (hQ : ∀ (a : Args) (st : ECache), Consistent api st →
      (collectVals api fuel a st).1 = a.map (fun kv => (kv.1, denAlt api fuel kv.2)) ∧
      Consistent api (collectVals api fuel a st).2) :
    ArgsExecOk api (fuel + 1) := by
  intro a st h
  obtain ⟨h1, h2⟩ := hQ a st h
  simp only [argsExecute]
  refine ⟨?_, h2⟩
  rw [h1]
  rw [show denCombos api (fuel + 1) a = denGo api fuel a from by simp [denCombos],
    denGo_eq_cartProd]
  rw [List.map_map, List.map_map]
  rfl

theorem argsExecOk_all (api : String → Args → List Value) : ∀ fuel, ArgsExecOk api fuel := by
  intro fuel
  induction fuel with
  | zero =>
    intro a st h
    refine ⟨by simp [argsExecute, denCombos], ?_⟩
    simpa [argsExecute] using h
  | succ n ih =>
    exact args_succ_spec api n (collect_spec_of_mco api n (mco_spec_of_args api n ih))

/-- Claim C1: executing a resolved MethodCallOutput with a consistent cache
evaluates its method call on every element of the Cartesian product of the
recursively executed argument alternatives, zipped against the binding keys,
producing for each resulting binding set the paginated operation's pages
each mapped through the output path to a page of scalar values; the cache
(keyed by method and args) stays consistent; and a repeated execution from
the updated cache returns the same pages, so caching is transparent. -/
theorem mcoExecute_spec (api : String → Args → List Value) (fuel : Nat) (m : SMeth)
    (cargs : Args) (path : OutputPathT) (st : ECache) (h : Consistent api st) :
    (mcoExecute api (fuel + 1) m cargs path st).1 =
      ((cartProd (cargs.map (fun kv => denAlt api fuel kv.2))).map
        (fun combo => (cargs.map Prod.fst).zip combo)).flatMap
        (fun c => (api m.name c).map (fun pg => (applyTo path pg).getD [])) ∧
    Consistent api (mcoExecute api (fuel + 1) m cargs path st).2 ∧
    (mcoExecute api (fuel + 1) m cargs path
        (mcoExecute api (fuel + 1) m cargs path st).2).1 =
      (mcoExecute api (fuel + 1) m cargs path st).1 := by
  obtain ⟨h1, h2⟩ := mco_spec_of_args api (fuel + 1) (argsExecOk_all api (fuel + 1))
    m cargs path st h
  obtain ⟨h3, h4⟩ := mco_spec_of_args api (fuel + 1) (argsExecOk_all api (fuel + 1))
    m cargs path _ h2
  refine ⟨?_, h2, by rw [h3, h1]⟩
  rw [h1, denPages]
  rw [show denCombos api (fuel + 1) cargs = denGo api fuel cargs from by simp [denCombos],
    denGo_eq_cartProd]

/-- Witness for mcoExecute_spec: a one-page API, a call with no arguments
and an empty (hence consistent) cache. -/
theorem mcoExecute_spec_witness :
    (mcoExecute (fun _ _ => [Value.obj [("A", Value.str "x")]]) 2 ⟨"get_a", none, none⟩ []
        [Seg.field "A"] []).1 =
      ((cartProd (([] : Args).map (fun kv => denAlt (fun _ _ => [Value.obj [("A", Value.str "x")]]) 1 kv.2))).map
        (fun combo => (([] : Args).map Prod.fst).zip combo)).flatMap
        (fun c => ((fun (_ : String) (_ : Args) => [Value.obj [("A", Value.str "x")]]) "get_a" c).map
          (fun pg => (applyTo [Seg.field "A"] pg).getD [])) ∧
    Consistent (fun _ _ => [Value.obj [("A", Value.str "x")]])
      (mcoExecute (fun _ _ => [Value.obj [("A", Value.str "x")]]) 2 ⟨"get_a", none, none⟩ []
        [Seg.field "A"] []).2 ∧
    (mcoExecute (fun _ _ => [Value.obj [("A", Value.str "x")]]) 2 ⟨"get_a", none, none⟩ []
        [Seg.field "A"]
        (mcoExecute (fun _ _ => [Value.obj [("A", Value.str "x")]]) 2 ⟨"get_a", none, none⟩ []
          [Seg.field "A"] []).2).1 =
      (mcoExecute (fun _ _ => [Value.obj [("A", Value.str "x")]]) 2 ⟨"get_a", none, none⟩ []
        [Seg.field "A"] []).1 :=
  mcoExecute_spec (fun _ _ => [Value.obj [("A", Value.str "x")]]) 1 ⟨"get_a", none, none⟩ []
    [Seg.field "A"] [] (by intro n a pages hp; simp [ecLookup, List.find?] at hp)

/-! ## The planner (src/grabber/service.py and src/grabber/method.py)

A service is its list of method records.  The per-method attempt cache
(method.py line 12, a defaultdict keyed by Args) is threaded explicitly as
an association from (method name, args) to the ordered attempt list.

method.py line 72 reads `for path, output_shape in OutputPath.from_shape(...)`
but utils.py map_shape yields (path, shape, parent) TRIPLES, so unpacking
into two names raises ValueError on the first yielded leaf.  The destructuring
step is therefore a parameter: unpackSrc models the source (an error as soon
as the leaf list is non-empty), unpackFix the evident (path, shape) reading
that the rest of method.py assumes (and that the older copy in getter.py,
whose map_shape yields pairs, actually implements).

Errors: unpack is the ValueError above; fuel reports exhaustion of the
recursion budget of the embedding (Python's recursion is unbounded; every
theorem either holds for all budgets or instantiates a sufficient one). -/

structure SService where
  methods : List SMeth

inductive PlanErr where
  | unpack
  | fuel
  deriving DecidableEq

abbrev Unpacker := List (OutputPathT × Shape × Option Shape) → Except PlanErr (List (OutputPathT × Shape))

/-- The source's two-name unpacking of the three-tuples: ValueError unless
the list is empty (the loop never starts on an empty list). -/
def unpackSrc : Unpacker
  | [] => .ok []
  | _ :: _ => .error .unpack

/-- The evident intended unpacking: drop the parent component. -/
def unpackFix : Unpacker :=
  fun l => .ok (l.map (fun t => (t.1, t.2.1)))

/-- Service.how_to_get_from_shape (service.py lines 44-49): unwrap list
shapes, then a truthy (non-empty) enum yields the MultiArg of its values. -/
def howToGetFromShape : Shape → Option (List Arg)
  | Shape.list member => howToGetFromShape member
  | Shape.strEnum enum => if enum.isEmpty then none else some [Arg.multi enum]
  | _ => none

/-- The tokens scored for a leaf path: OutputPath(self.path + path)
.for_scoring() (method.py line 73) -- the method's prepared name tokens
concatenated with the path's non-ITERATE member names, joined and prepared
for scoring. -/
def scoreTokens (mpath : List String) (p : OutputPathT) : List String :=
  prepareForScoring (String.intercalate " " (mpath ++ nonBranching p))

/-- Method.how_to_get (src/grabber/method.py lines 48-77): an enum shape
short-circuits to the MultiArg; the key's without-format KeySpec is added to
used_keys and the method aborts (yields nothing) when that set meets its own
required keys; otherwise each from_shape leaf with a non-None path score
yields a LazyMethodCallOutput over a LazyMethodCall carrying the updated
used_keys. -/
def methodHowToGetE (u : Unpacker) (meth : SMeth) (key : String) (method? : Option String)
    (shape : Option Shape) (args : Args) (excluded : Finset String)
    (usedKeys : Finset (List String)) : Except PlanErr (List Arg) :=
  match shape.bind howToGetFromShape with
  | some shapeArgs => .ok shapeArgs
  | none =>
    let usedKeys' := usedKeys ∪ {withoutFormat (keySpecMake key none)}
    if (usedKeys' ∩ requiresKeysOf meth).Nonempty then .ok []
    else
      let spec := keySpecMake key method?
      let ms := kscore spec (methPath meth)
      do
        let leaves ← u (fromShapeT meth.output)
        .ok (leaves.filterMap (fun pos =>
          match kscore spec (scoreTokens (methPath meth) pos.1) with
          | none => none
          | some psc =>
            some (Arg.lazyOutput meth args excluded usedKeys' pos.1 (scoreOr ms)
              (scoreOr (some psc)) shape)))

/-- The per-method attempt cache: method.py line 12 and lines 29-45. -/
abbrev MCache := List ((String × Args) × List (Option Args × Finset String × Finset (List String)))

def mcLookup (st : MCache) (k : String × Args) : List (Option Args × Finset String × Finset (List String)) :=
  match st.find? (fun e => e.1.1 == k.1 && beqArgs 64 e.1.2 k.2) with
  | some e => e.2
  | none => []

def mcPush : MCache → (String × Args) → (Option Args × Finset String × Finset (List String)) → MCache
  | [], k, att => [(k, [att])]
  | e :: rest, k, att =>
    if e.1.1 == k.1 && beqArgs 64 e.1.2 k.2 then (e.1, e.2 ++ [att]) :: rest
    else e :: mcPush rest k att

/-- The cache scan of Method.how_to_call (method.py lines 29-36): an attempt
recorded under the same excluded set is returned verbatim (even a failure);
otherwise a successful attempt whose plan's used_methods is disjoint from
the excluded set, recorded under a subset of the excluded set and a subset
of the used keys, is reused. -/
def cacheScan (attempts : List (Option Args × Finset String × Finset (List String)))
    (excluded : Finset String) (usedKeys : Finset (List String)) : Option (Option Args) :=
  match attempts with
  | [] => none
  | (call, ex, uk) :: rest =>
    if ex = excluded then some call
    else
      match call with
      | some c =>
        if (usedMethodsC c ∩ excluded) = ∅ ∧ ex ⊆ excluded ∧ uk ⊆ usedKeys then some (some c)
        else cacheScan rest excluded usedKeys
      | none => cacheScan rest excluded usedKeys

/-- The requires loop of Method.how_to_call (method.py lines 38-45): for
each missing required input, ask the service (with this method excluded);
an empty answer aborts the whole call, otherwise the first plan is bound. -/
def hcGo (shg : String → Option String → Option Shape → Args → Finset String →
      Finset (List String) → MCache → Except PlanErr (List Arg × MCache))
    (meth : SMeth) (origArgs : Args) (excluded : Finset String)
    (usedKeys : Finset (List String)) :
    List (String × Shape) → Args → MCache → Except PlanErr (Option Args × MCache)
  | [], acc, st => .ok (some acc, st)
  | (k, shape) :: rest, acc, st =>
    if (acc.map Prod.fst).contains k then
      hcGo shg meth origArgs excluded usedKeys rest acc st
    else do
      let r ← shg k (some meth.name) (some shape) origArgs (excluded ∪ {meth.name}) usedKeys st
      match r.1 with
      | [] => .ok (none, r.2)
      | x :: _ => hcGo shg meth origArgs excluded usedKeys rest (acc ++ [(k, x)]) r.2

/-- Method.how_to_call (method.py lines 26-46), generic in the service
recursion: scan the cache, else run the requires loop and record the attempt
(also a failed one) under the original args. -/
def methodHowToCallGen (shg : String → Option String → Option Shape → Args → Finset String →
      Finset (List String) → MCache → Except PlanErr (List Arg × MCache))
    (meth : SMeth) (args : Args) (excluded : Finset String)
    (usedKeys : Finset (List String)) (st : MCache) :
    Except PlanErr (Option Args × MCache) :=
  match cacheScan (mcLookup st (meth.name, args)) excluded usedKeys with
  | some res => .ok (res, st)
  | none => do
    let r ← hcGo shg meth args excluded usedKeys (requiresOf meth) args st
    .ok (r.1, mcPush r.2 (meth.name, args) (r.1, excluded, usedKeys))

/-- Arg.unlazy dispatch (arg.py line 7, method.py lines 87-92, 106-109,
133-134, 140-143), generic in how_to_call: a LazyMethodCallOutput resolves
through its LazyMethodCall into a MethodCallOutput, a bare LazyMethodCall
into a MethodCall; resolved outputs and every other variant return
themselves.  MethodCall.unlazy's `None not in unlazied` test compares None
against (name, Arg) pairs and is always true, so a MethodCall also returns
itself. -/
def unlazyArgGen (hc : SMeth → Args → Finset String → Finset (List String) → MCache →
      Except PlanErr (Option Args × MCache)) :
    Arg → MCache → Except PlanErr (Option Arg × MCache)
  | Arg.lazyOutput m args ex uk path ms ps sh, st => do
    let r ← hc m args ex uk st
    match r.1 with
    | some newArgs => .ok (some (Arg.callOutput m newArgs path ms ps sh), r.2)
    | none => .ok (none, r.2)
  | Arg.lazyCall m args ex uk, st => do
    let r ← hc m args ex uk st
    .ok (r.1.map (fun newArgs => Arg.mcall m newArgs), r.2)
  | a, st => .ok (some a, st)

/-- filter(None, (c.unlazy() for c in group)) with the cache threaded. -/
def unlazyGroupL (unl : Arg → MCache → Except PlanErr (Option Arg × MCache)) :
    List Arg → MCache → Except PlanErr (List Arg × MCache)
  | [], st => .ok ([], st)
  | c :: cs, st => do
    let r ← unl c st
    let r2 ← unlazyGroupL unl cs r.2
    .ok ((match r.1 with | some x => [x] | none => []) ++ r2.1, r2.2)

/-- re.match of service.py line 65: the name starts with list, describe or
get. -/
def startsWithS (s p : String) : Bool :=
  p.data.isPrefixOf s.data

/-- The candidate pass of Service.how_to_get (service.py lines 64-65): method
names not excluded and starting with a listing verb, in order. -/
def candidates (svc : SService) (excluded : Finset String) : List SMeth :=
  svc.methods.filter (fun m =>
    decide (m.name ∉ excluded) &&
      (startsWithS m.name "list" || startsWithS m.name "describe" || startsWithS m.name "get"))

/-- BaseMethodCallOutput.quick_score (method.py lines 125-131): the pair
(path score, method score), lexicographic. -/
abbrev QKey := Lex (Score × Score)

def quickKey (c : Arg) : QKey :=
  toLex (match c with
  | Arg.lazyOutput _ _ _ _ _ ms ps _ => (ps, ms)
  | Arg.callOutput _ _ _ ms ps _ => (ps, ms)
  | _ => ([], []))

/-- The leading component of the best-bucket scorer (service.py lines 77-78):
minus the number of required inputs of the call's method. -/
def lazyReqOf (c : Arg) : ℤ :=
  match c with
  | Arg.lazyOutput m _ _ _ _ _ _ _ => -((requiresOf m).length : ℤ)
  | Arg.callOutput m _ _ _ _ _ => -((requiresOf m).length : ℤ)
  | _ => 0

abbrev BKey := Lex (ℤ × QKey)

def bestKey (c : Arg) : BKey :=
  toLex (lazyReqOf c, quickKey c)

/-- MethodCallOutput.score (method.py lines 149-157): quick score extended by
minus complexity, minus method path length, minus non-branching path length,
lexicographic. -/
abbrev FKey := Lex (Score × Lex (Score × Lex (ℤ × Lex (ℤ × ℤ))))

def fullKey (c : Arg) : FKey :=
  match c with
  | Arg.callOutput m cargs pth ms ps _ =>
    toLex (ps, toLex (ms, toLex (-(complexityC cargs),
      toLex (-((methPath m).length : ℤ), -((nonBranching pth).length : ℤ)))))
  | _ => toLex ([], toLex ([], toLex (0, toLex (0, 0))))

/-- itertools.groupby: maximal runs of adjacent equal keys, accumulator-based
so that it evaluates by unfolding. -/
def chunkAux [DecidableEq κ] (key : α → κ) : κ → List α → List α → List (List α)
  | _, cur, [] => [cur.reverse]
  | k, cur, x :: xs =>
    if key x = k then chunkAux key k (x :: cur) xs
    else cur.reverse :: chunkAux key (key x) [x] xs

def chunkBy [DecidableEq κ] (key : α → κ) : List α → List (List α)
  | [] => []
  | x :: xs => chunkAux key (key x) [x] xs

/-- The calls accumulation of a bucket (service.py lines 82-84): concatenate
each method's how_to_get leaves in method order. -/
def collectCalls (u : Unpacker) (key : String) (method? : Option String) (args : Args)
    (excluded : Finset String) (usedKeys : Finset (List String)) :
    List SMeth → Except PlanErr (List Arg)
  | [] => .ok []
  | m :: rest => do
    let c ← methodHowToGetE u m key method? none args excluded usedKeys
    let r ← collectCalls u key method? args excluded usedKeys rest
    .ok (c ++ r)

/-- One group step of Service.sort_calls (service.py lines 39-42): unlazy the
group, drop the Nones; a non-empty remainder is sorted descending by the full
score and yielded. -/
def resolveGroup (unl : Arg → MCache → Except PlanErr (Option Arg × MCache))
    (g : List Arg) (st : MCache) : Except PlanErr (Option (List Arg) × MCache) := do
  let r ← unlazyGroupL unl g st
  .ok (if r.1.isEmpty then none else some (descSort fullKey r.1), r.2)

/-- `for group in self.sort_calls(...): return group` (service.py lines
85-86): groups are tried in order and the first resolved one is returned;
the generator's laziness means later groups are never unlazied. -/
def tryGroupsGen (unl : Arg → MCache → Except PlanErr (Option Arg × MCache)) :
    List (List Arg) → MCache → Except PlanErr (Option (List Arg) × MCache)
  | [], st => .ok (none, st)
  | g :: gs, st => do
    let r ← resolveGroup unl g st
    match r.1 with
    | some res => .ok (some res, r.2)
    | none => tryGroupsGen unl gs r.2

/-- One bucket of Service.how_to_get (service.py lines 76-86): collect the
calls, sort descending by the bucket scorer, group by it, return the first
resolved group. -/
def runBucketGen [LinearOrder κ] (u : Unpacker)
    (unl : Arg → MCache → Except PlanErr (Option Arg × MCache)) (keyf : Arg → κ)
    (key : String) (method? : Option String) (args : Args) (excluded : Finset String)
    (usedKeys : Finset (List String)) (ms : List SMeth) (st : MCache) :
    Except PlanErr (Option (List Arg) × MCache) := do
  let calls ← collectCalls u key method? args excluded usedKeys ms
  tryGroupsGen unl (chunkBy keyf (descSort keyf calls)) st

/-- One iteration of the bucket loop (service.py lines 76-86): a resolved
group from this bucket is returned, otherwise the next bucket runs on the
updated cache. -/
def bucketStep [LinearOrder κ] (u : Unpacker)
    (unl : Arg → MCache → Except PlanErr (Option Arg × MCache)) (keyf : Arg → κ)
    (key : String) (method? : Option String) (args : Args) (excluded : Finset String)
    (usedKeys : Finset (List String)) (ms : List SMeth)
    (next : MCache → Except PlanErr (List Arg × MCache)) (st : MCache) :
    Except PlanErr (List Arg × MCache) := do
  let r ← runBucketGen u unl keyf key method? args excluded usedKeys ms st
  match r.1 with
  | some g => .ok (g, r.2)
  | none => next r.2

/-- The bucket loop of Service.how_to_get (service.py lines 76-88): the two
best buckets score by (-requires count, quick score), the good and bad
buckets by the quick score alone; when no bucket resolves the result is the
empty list. -/
def bucketChain (u : Unpacker)
    (unl : Arg → MCache → Except PlanErr (Option Arg × MCache))
    (key : String) (method? : Option String) (args : Args) (excluded : Finset String)
    (usedKeys : Finset (List String)) (b1 b2 b3 b4 : List SMeth) (st : MCache) :
    Except PlanErr (List Arg × MCache) :=
  bucketStep u unl bestKey key method? args excluded usedKeys b1
    (bucketStep u unl bestKey key method? args excluded usedKeys b2
      (bucketStep u unl quickKey key method? args excluded usedKeys b3
        (bucketStep u unl quickKey key method? args excluded usedKeys b4
          (fun s => .ok ([], s))))) st

/-- Service.how_to_get past the shape short-circuit (service.py lines 57-88),
generic in the recursive service call shg: classify candidates into the four
buckets, then run the buckets in order with their scorers, returning the
first bucket's resolved group, else the empty list. -/
def serviceCore (u : Unpacker) (svc : SService)
    (shg : String → Option String → Option Shape → Args → Finset String →
      Finset (List String) → MCache → Except PlanErr (List Arg × MCache))
    (key : String) (method? : Option String) (args : Args) (excluded : Finset String)
    (usedKeys : Finset (List String)) (st : MCache) :
    Except PlanErr (List Arg × MCache) :=
  let ks := keySpecMake key none
  let mks := keySpecMake key method?
  let pats := matcherPatterns ks
  let patsM := matcherPatterns mks
  let cands := candidates svc excluded
  let best := cands.filter (fun m => decide (methPath m ∈ pats))
  let bestM := cands.filter (fun m => !decide (methPath m ∈ pats) && decide (methPath m ∈ patsM))
  let good := cands.filter (fun m =>
    !decide (methPath m ∈ pats) && !decide (methPath m ∈ patsM) && ksMatches ks (methPath m))
  let bad := cands.filter (fun m =>
    !decide (methPath m ∈ pats) && !decide (methPath m ∈ patsM) && !ksMatches ks (methPath m))
  let unl := unlazyArgGen (methodHowToCallGen shg)
  bucketChain u unl key method? args excluded usedKeys best bestM good bad st

/-- Service.how_to_get (service.py lines 51-88): the shape short-circuit,
then the bucket pipeline, with the mutual recursion through Method
.how_to_call budgeted by fuel. -/
def serviceHowToGetE (u : Unpacker) (svc : SService) :
    Nat → String → Option String → Option Shape → Args → Finset String →
      Finset (List String) → MCache → Except PlanErr (List Arg × MCache)
  | 0, _, _, _, _, _, _, _ => .error .fuel
  | fuel + 1, key, method?, shape, args, excluded, usedKeys, st =>
    match shape.bind howToGetFromShape with
    | some res => .ok (res, st)
    | none => serviceCore u svc (serviceHowToGetE u svc fuel) key method? args excluded usedKeys st

/-- C2: for a shape that is a non-empty string enum or a list of one, both
Service.how_to_get and Method.how_to_get return exactly the single Multi arg
of the enum values, for every service, method, key and planner state: the
shape short-circuit fires before any API method is considered. -/
theorem enum_shape_short_circuits (vals : List String) (sh : Shape)
    (hvals : vals ≠ [])
    (hsh : sh = Shape.strEnum vals ∨ sh = Shape.list (Shape.strEnum vals)) :
    ∀ (u : Unpacker) (svc : SService) (meth : SMeth) (fuel : Nat) (key : String)
      (method? : Option String) (args : Args) (excluded : Finset String)
      (usedKeys : Finset (List String)) (st : MCache),
      serviceHowToGetE u svc (fuel + 1) key method? (some sh) args excluded usedKeys st =
        .ok ([Arg.multi vals], st) ∧
      methodHowToGetE u meth key method? (some sh) args excluded usedKeys =
        .ok [Arg.multi vals] := by
  have hshape : howToGetFromShape sh = some [Arg.multi vals] := by
    rcases hsh with h | h <;> subst h <;> simp [howToGetFromShape, hvals]
  intro u svc meth fuel key method? args excluded usedKeys st
  constructor
  · simp [serviceHowToGetE, hshape]
  · simp [methodHowToGetE, hshape]

/-- The C2 theorem applied at an enum shape with the single value x, the
empty service, a fresh method and empty planner state. -/
theorem enum_shape_short_circuits_witness :
    (["x"] : List String) ≠ [] ∧
    ((Shape.strEnum ["x"] = Shape.strEnum ["x"] ∨
        Shape.strEnum ["x"] = Shape.list (Shape.strEnum ["x"]))) ∧
    serviceHowToGetE unpackSrc ⟨[]⟩ 1 "k" none (some (Shape.strEnum ["x"])) [] ∅ ∅ [] =
      .ok ([Arg.multi ["x"]], []) ∧
    methodHowToGetE unpackSrc ⟨"m", none, none⟩ "k" none (some (Shape.strEnum ["x"])) [] ∅ ∅ =
      .ok [Arg.multi ["x"]] := by
  refine ⟨by simp, Or.inl rfl, ?_⟩
  exact enum_shape_short_circuits ["x"] (Shape.strEnum ["x"]) (by simp) (Or.inl rfl)
    unpackSrc ⟨[]⟩ ⟨"m", none, none⟩ 0 "k" none [] ∅ ∅ []

/-! ## A synthetic mutually-dependent service -/

def strShapeE : Shape := Shape.strEnum []

def getAMeth : SMeth :=
  ⟨"get_a", some (Shape.struct [("B", strShapeE)] ["B"]),
    some (Shape.struct [("A", strShapeE)] [])⟩

def getBMeth : SMeth :=
  ⟨"get_b", some (Shape.struct [("A", strShapeE)] ["A"]),
    some (Shape.struct [("B", strShapeE)] [])⟩

def cycSvc : SService := ⟨[getAMeth, getBMeth]⟩

/-- C4: on the two-method service where get_a requires input B and get_b
requires input A, the source's two-name leaf destructuring (method.py line
72 against the three-tuples of utils.py map_shape) raises ValueError for
both keys before any cycle handling runs; with the evident destructuring
the planner does terminate with the empty result for both keys, the inner
how_to_get aborting because the other method's required key is already in
used_keys. -/
theorem cycle_service_rejected :
    serviceHowToGetE unpackSrc cycSvc 6 "A" none none [] ∅ ∅ [] = .error .unpack ∧
    serviceHowToGetE unpackSrc cycSvc 6 "B" none none [] ∅ ∅ [] = .error .unpack ∧
    (∃ st, serviceHowToGetE unpackFix cycSvc 6 "A" none none [] ∅ ∅ [] = .ok ([], st)) ∧
    (∃ st, serviceHowToGetE unpackFix cycSvc 6 "B" none none [] ∅ ∅ [] = .ok ([], st)) := by
  refine ⟨rfl, rfl, ⟨_, rfl⟩, ⟨_, rfl⟩⟩

/-! ## Sortedness and grouping facts about the bucket pipeline -/

theorem map_insertDesc [LinearOrder κ] (keyf : α → κ) (x : α) (l : List α) :
    (insertDesc keyf x l).map keyf = insertDesc id (keyf x) (l.map keyf) := by
  induction l with
  | nil => rfl
  | cons y ys ih => by_cases h : keyf y ≤ keyf x <;> simp [insertDesc, h, ih]

theorem map_descSort [LinearOrder κ] (keyf : α → κ) (l : List α) :
    (descSort keyf l).map keyf = descSort id (l.map keyf) := by
  induction l with
  | nil => rfl
  | cons x xs ih => simp [descSort, map_insertDesc, ih]

theorem mem_insertDesc [LinearOrder κ] (keyf : α → κ) (x : α) (l : List α) (z : α) :
    z ∈ insertDesc keyf x l ↔ z = x ∨ z ∈ l := by
  induction l with
  | nil => simp [insertDesc]
  | cons y ys ih =>
    by_cases h : keyf y ≤ keyf x <;> simp [insertDesc, h, ih] <;> tauto

theorem pairwise_insertDesc [LinearOrder κ] (keyf : α → κ) (x : α) (l : List α)
    (hl : l.Pairwise (fun a b => keyf b ≤ keyf a)) :
    (insertDesc keyf x l).Pairwise (fun a b => keyf b ≤ keyf a) := by
  induction l with
  | nil => simp [insertDesc]
  | cons y ys ih =>
    rcases List.pairwise_cons.mp hl with ⟨hy, hys⟩
    by_cases h : keyf y ≤ keyf x
    · rw [insertDesc, if_pos h]
      refine List.pairwise_cons.mpr ⟨?_, hl⟩
      intro z hz
      rcases List.mem_cons.mp hz with rfl | hz
      · exact h
      · exact (hy z hz).trans h
    · rw [insertDesc, if_neg h]
      refine List.pairwise_cons.mpr ⟨?_, ih hys⟩
      intro z hz
      rcases (mem_insertDesc keyf x ys z).mp hz with rfl | hz
      · exact le_of_lt (lt_of_not_le h)
      · exact hy z hz

theorem pairwise_descSort [LinearOrder κ] (keyf : α → κ) (l : List α) :
    (descSort keyf l).Pairwise (fun a b => keyf b ≤ keyf a) := by
  induction l with
  | nil => exact List.Pairwise.nil
  | cons x xs ih => exact pairwise_insertDesc keyf x (descSort keyf xs) ih

theorem filter_insertDesc [LinearOrder κ] (keyf : α → κ) (k : κ) (x : α) (l : List α) :
    (insertDesc keyf x l).filter (fun a => decide (keyf a = k)) =
      (if keyf x = k then [x] else []) ++ l.filter (fun a => decide (keyf a = k)) := by
  induction l with
  | nil => by_cases h : keyf x = k <;> simp [insertDesc, h]
  | cons y ys ih =>
    by_cases h : keyf y ≤ keyf x
    · rw [insertDesc, if_pos h]
      by_cases hx : keyf x = k <;> simp [hx]
    · rw [insertDesc, if_neg h]
      by_cases hy : keyf y = k
      · have hx : keyf x ≠ k := by
          intro e
          exact h (le_of_eq (by rw [hy, e]))
        simp [hy, hx, ih]
      · simp [hy, ih]

theorem filter_descSort [LinearOrder κ] (keyf : α → κ) (k : κ) (l : List α) :
    (descSort keyf l).filter (fun a => decide (keyf a = k)) =
      l.filter (fun a => decide (keyf a = k)) := by
  induction l with
  | nil => rfl
  | cons x xs ih => by_cases h : keyf x = k <;> simp [descSort, filter_insertDesc, h, ih]

/-- Deduplication keeping first occurrences, with an explicit seen list;
dedupAux [] of a descending key list is the list of distinct keys in
descending order. -/
def dedupAux [DecidableEq κ] : List κ → List κ → List κ
  | _, [] => []
  | seen, k :: ks => if seen.contains k then dedupAux seen ks else k :: dedupAux (k :: seen) ks

theorem dedupAux_sub [DecidableEq κ] :
    ∀ (seen l : List κ) (c : κ), c ∈ dedupAux seen l → c ∈ l := by
  intro seen l
  induction l generalizing seen with
  | nil => intro c h; exact absurd h (by simp [dedupAux])
  | cons k ks ih =>
    intro c h
    rw [dedupAux] at h
    by_cases hk : seen.contains k
    · rw [if_pos hk] at h
      exact List.mem_cons_of_mem k (ih seen c h)
    · rw [if_neg hk] at h
      rcases List.mem_cons.mp h with rfl | h
      · exact List.mem_cons_self c ks
      · exact List.mem_cons_of_mem k (ih (k :: seen) c h)

theorem dedupAux_congr [DecidableEq κ] :
    ∀ (l s₁ s₂ : List κ), (∀ c ∈ l, s₁.contains c = s₂.contains c) →
      dedupAux s₁ l = dedupAux s₂ l := by
  intro l
  induction l with
  | nil => intro s₁ s₂ _; rfl
  | cons k ks ih =>
    intro s₁ s₂ hc
    rw [dedupAux, dedupAux, hc k (List.mem_cons_self k ks)]
    by_cases hk : s₂.contains k
    · rw [if_pos hk, if_pos hk]
      exact ih s₁ s₂ (fun c hcm => hc c (List.mem_cons_of_mem k hcm))
    · rw [if_neg hk, if_neg hk]
      refine congrArg (k :: ·) (ih (k :: s₁) (k :: s₂) ?_)
      intro c hcm
      have h2 := hc c (List.mem_cons_of_mem k hcm)
      simp only [List.contains_cons, h2]

theorem dedupAux_skip [DecidableEq κ] (k : κ) :
    ∀ (m rest : List κ), (∀ c ∈ m, c = k) → dedupAux [k] (m ++ rest) = dedupAux [k] rest := by
  intro m
  induction m with
  | nil => intro rest _; rfl
  | cons c cs ih =>
    intro rest hm
    have hck : c = k := hm c (List.mem_cons_self c cs)
    rw [List.cons_append, dedupAux, if_pos (by simp [List.contains_cons, hck])]
    exact ih rest (fun d hd => hm d (List.mem_cons_of_mem c hd))

theorem chunkAux_eq [DecidableEq κ] (key : α → κ) (k : κ) :
    ∀ (xs : List α) (cur : List α),
      chunkAux key k cur xs =
        (cur.reverse ++ xs.takeWhile (fun a => decide (key a = k))) ::
          chunkBy key (xs.dropWhile (fun a => decide (key a = k))) := by
  intro xs
  induction xs with
  | nil => intro cur; simp [chunkAux, chunkBy]
  | cons x xs ih =>
    intro cur
    by_cases h : key x = k
    · rw [chunkAux, if_pos h, ih (x :: cur)]
      simp [List.takeWhile_cons, List.dropWhile_cons, h]
    · rw [chunkAux, if_neg h]
      simp only [List.takeWhile_cons, List.dropWhile_cons, decide_eq_true_eq, h, if_false]
      rw [List.append_nil]
      rfl

theorem dropWhile_keys_lt [LinearOrder κ] (keyf : α → κ) (k : κ) :
    ∀ (xs : List α), (∀ y ∈ xs, keyf y ≤ k) → xs.Pairwise (fun a b => keyf b ≤ keyf a) →
      ∀ a ∈ xs.dropWhile (fun a => decide (keyf a = k)), keyf a < k := by
  intro xs
  induction xs with
  | nil => intro _ _ a ha; exact absurd ha (by simp)
  | cons y ys ih =>
    intro hle hp a ha
    by_cases h : keyf y = k
    · rw [List.dropWhile_cons_of_pos (by simpa using h)] at ha
      exact ih (fun z hz => hle z (List.mem_cons_of_mem _ hz)) (List.pairwise_cons.mp hp).2 a ha
    · rw [List.dropWhile_cons_of_neg (by simpa using h)] at ha
      have hylt : keyf y < k := lt_of_le_of_ne (hle y (List.mem_cons_self y ys)) h
      rcases List.mem_cons.mp ha with rfl | ha2
      · exact hylt
      · exact lt_of_le_of_lt ((List.pairwise_cons.mp hp).1 a ha2) hylt

theorem chunk_sorted [LinearOrder κ] (keyf : α → κ) :
    ∀ (n : Nat) (s : List α), s.length ≤ n →
      s.Pairwise (fun a b => keyf b ≤ keyf a) →
      chunkBy keyf s = (dedupAux [] (s.map keyf)).map
        (fun k => s.filter (fun a => decide (keyf a = k))) := by
  intro n
  induction n with
  | zero =>
    intro s hs _
    have : s = [] := List.eq_nil_of_length_eq_zero (Nat.le_zero.mp hs)
    subst this
    rfl
  | succ n ih =>
    intro s hs hp
    cases s with
    | nil => rfl
    | cons x xs =>
      have hcons := List.pairwise_cons.mp hp
      have hxs_le := hcons.1
      have hxs_p := hcons.2
      have hs' : xs.length ≤ n := by
        simp only [List.length_cons] at hs
        omega
      have htw : ∀ a ∈ xs.takeWhile (fun a => decide (keyf a = keyf x)), keyf a = keyf x := by
        intro a ha
        simpa using List.mem_takeWhile_imp ha
      have hdw : ∀ a ∈ xs.dropWhile (fun a => decide (keyf a = keyf x)), keyf a < keyf x :=
        dropWhile_keys_lt keyf (keyf x) xs hxs_le hxs_p
      have hsplit : xs.takeWhile (fun a => decide (keyf a = keyf x)) ++
          xs.dropWhile (fun a => decide (keyf a = keyf x)) = xs :=
        List.takeWhile_append_dropWhile _ _
      have hdw_p : (xs.dropWhile (fun a => decide (keyf a = keyf x))).Pairwise
          (fun a b => keyf b ≤ keyf a) :=
        List.Pairwise.sublist (List.dropWhile_sublist _) hxs_p
      have hlen : (xs.dropWhile (fun a => decide (keyf a = keyf x))).length ≤ n :=
        le_trans (length_dropWhile_le' _ xs) hs'
      have hih := ih (xs.dropWhile (fun a => decide (keyf a = keyf x))) hlen hdw_p
      have hhead : (x :: xs).filter (fun a => decide (keyf a = keyf x)) =
          x :: xs.takeWhile (fun a => decide (keyf a = keyf x)) := by
        rw [List.filter_cons_of_pos (by simp)]
        congr 1
        conv_lhs => rw [← hsplit]
        rw [List.filter_append,
          List.filter_eq_self.mpr (fun a ha => by simpa using htw a ha),
          List.filter_eq_nil_iff.mpr (fun a ha => by simp [ne_of_lt (hdw a ha)]),
          List.append_nil]
      have h1 : dedupAux [keyf x]
          ((xs.takeWhile (fun a => decide (keyf a = keyf x))).map keyf ++
           (xs.dropWhile (fun a => decide (keyf a = keyf x))).map keyf) =
          dedupAux [keyf x] ((xs.dropWhile (fun a => decide (keyf a = keyf x))).map keyf) := by
        refine dedupAux_skip (keyf x) _ _ ?_
        intro c hc
        rcases List.mem_map.mp hc with ⟨a, ha, rfl⟩
        exact htw a ha
      have h2 : dedupAux [keyf x] ((xs.dropWhile (fun a => decide (keyf a = keyf x))).map keyf) =
          dedupAux [] ((xs.dropWhile (fun a => decide (keyf a = keyf x))).map keyf) := by
        refine dedupAux_congr _ [keyf x] [] ?_
        intro c hc
        rcases List.mem_map.mp hc with ⟨a, ha, rfl⟩
        have hne : keyf a ≠ keyf x := ne_of_lt (hdw a ha)
        simp [hne]
      have hded : dedupAux [] ((x :: xs).map keyf) =
          keyf x :: dedupAux []
            ((xs.dropWhile (fun a => decide (keyf a = keyf x))).map keyf) := by
        rw [List.map_cons, dedupAux, if_neg (by simp)]
        congr 1
        conv_lhs => rw [← hsplit, List.map_append]
        rw [h1, h2]
      show chunkAux keyf (keyf x) [x] xs = _
      rw [chunkAux_eq, hded, List.map_cons]
      congr 1
      · rw [hhead]
        simp
      · rw [hih]
        refine List.map_congr_left ?_
        intro k hk
        rcases List.mem_map.mp (dedupAux_sub _ _ k hk) with ⟨a0, ha0, rfl⟩
        have hlt := hdw a0 ha0
        have hxne : keyf x ≠ keyf a0 := (ne_of_lt hlt).symm
        have h3 : (xs.takeWhile (fun a => decide (keyf a = keyf x))).filter
            (fun a => decide (keyf a = keyf a0)) = [] := by
          rw [List.filter_eq_nil_iff]
          intro b hb
          have hbx := htw b hb
          simp [hbx, hxne]
        rw [List.filter_cons_of_neg (by simp [hxne])]
        conv_rhs => rw [← hsplit]
        rw [List.filter_append, h3, List.nil_append]

theorem groupSort_eq [LinearOrder κ] (keyf : α → κ) (l : List α) :
    chunkBy keyf (descSort keyf l) =
      (dedupAux [] (descSort id (l.map keyf))).map
        (fun k => l.filter (fun a => decide (keyf a = k))) := by
  rw [chunk_sorted keyf (descSort keyf l).length (descSort keyf l) le_rfl
    (pairwise_descSort keyf l), map_descSort]
  exact List.map_congr_left (fun k _ => filter_descSort keyf k l)

theorem except_bind_ok (x : α) (f : α → Except ε β) : (Except.ok x >>= f) = f x := rfl

theorem except_bind_err (e : ε) (f : α → Except ε β) :
    ((Except.error e : Except ε α) >>= f) = Except.error e := rfl

/-! ## The spec side of the bucket pipeline -/

/-- Modelled from the spec: "group by the bucket score, sort groups
descending" -- the distinct bucket keys in descending order, each key paired
with the candidates carrying it, in collection order. -/
def specGroups [LinearOrder κ] (keyf : α → κ) (l : List α) : List (List α) :=
  (dedupAux [] (descSort id (l.map keyf))).map
    (fun k => l.filter (fun a => decide (keyf a = k)))

/-- Modelled from the spec: one bucket -- collect every method's lazy call
outputs, then resolve the descending score groups one at a time, keeping the
first that resolves. -/
def specRunBucket [LinearOrder κ] (u : Unpacker)
    (unl : Arg → MCache → Except PlanErr (Option Arg × MCache)) (keyf : Arg → κ)
    (key : String) (method? : Option String) (args : Args) (excluded : Finset String)
    (usedKeys : Finset (List String)) (ms : List SMeth) (st : MCache) :
    Except PlanErr (Option (List Arg) × MCache) := do
  let calls ← collectCalls u key method? args excluded usedKeys ms
  tryGroupsGen unl (specGroups keyf calls) st

/-- Modelled from the spec: one bucket of the pipeline, falling through to
the next when nothing resolves. -/
def specBucketStep [LinearOrder κ] (u : Unpacker)
    (unl : Arg → MCache → Except PlanErr (Option Arg × MCache)) (keyf : Arg → κ)
    (key : String) (method? : Option String) (args : Args) (excluded : Finset String)
    (usedKeys : Finset (List String)) (ms : List SMeth)
    (next : MCache → Except PlanErr (List Arg × MCache)) (st : MCache) :
    Except PlanErr (List Arg × MCache) := do
  let r ← specRunBucket u unl keyf key method? args excluded usedKeys ms st
  match r.1 with
  | some g => .ok (g, r.2)
  | none => next r.2

/-- Modelled from the spec: the four buckets in order best, best-method,
good, bad; the best buckets score by (-requires count, quick score), the
others by the quick score; the empty list when nothing resolves. -/
def specBucketChain (u : Unpacker)
    (unl : Arg → MCache → Except PlanErr (Option Arg × MCache))
    (key : String) (method? : Option String) (args : Args) (excluded : Finset String)
    (usedKeys : Finset (List String)) (b1 b2 b3 b4 : List SMeth) (st : MCache) :
    Except PlanErr (List Arg × MCache) :=
  specBucketStep u unl bestKey key method? args excluded usedKeys b1
    (specBucketStep u unl bestKey key method? args excluded usedKeys b2
      (specBucketStep u unl quickKey key method? args excluded usedKeys b3
        (specBucketStep u unl quickKey key method? args excluded usedKeys b4
          (fun s => .ok ([], s))))) st

/-- Modelled from the spec: Service.how_to_get without a shape -- classify
the candidate methods, then run the spec's bucket pipeline. -/
def specServiceHowToGet (u : Unpacker) (svc : SService) (fuel : Nat)
    (key : String) (method? : Option String) (args : Args) (excluded : Finset String)
    (usedKeys : Finset (List String)) (st : MCache) :
    Except PlanErr (List Arg × MCache) :=
  let ks := keySpecMake key none
  let mks := keySpecMake key method?
  let pats := matcherPatterns ks
  let patsM := matcherPatterns mks
  let cands := candidates svc excluded
  let best := cands.filter (fun m => decide (methPath m ∈ pats))
  let bestM := cands.filter (fun m => !decide (methPath m ∈ pats) && decide (methPath m ∈ patsM))
  let good := cands.filter (fun m =>
    !decide (methPath m ∈ pats) && !decide (methPath m ∈ patsM) && ksMatches ks (methPath m))
  let bad := cands.filter (fun m =>
    !decide (methPath m ∈ pats) && !decide (methPath m ∈ patsM) && !ksMatches ks (methPath m))
  let unl := unlazyArgGen (methodHowToCallGen (serviceHowToGetE u svc fuel))
  specBucketChain u unl key method? args excluded usedKeys best bestM good bad st

theorem runBucket_eq [LinearOrder κ] (u : Unpacker)
    (unl : Arg → MCache → Except PlanErr (Option Arg × MCache)) (keyf : Arg → κ)
    (key : String) (method? : Option String) (args : Args) (excluded : Finset String)
    (usedKeys : Finset (List String)) (ms : List SMeth) (st : MCache) :
    runBucketGen u unl keyf key method? args excluded usedKeys ms st =
      specRunBucket u unl keyf key method? args excluded usedKeys ms st := by
  simp only [runBucketGen, specRunBucket, specGroups, groupSort_eq]

theorem bucketStep_eq [LinearOrder κ] (u : Unpacker)
    (unl : Arg → MCache → Except PlanErr (Option Arg × MCache)) (keyf : Arg → κ)
    (key : String) (method? : Option String) (args : Args) (excluded : Finset String)
    (usedKeys : Finset (List String)) (ms : List SMeth)
    (next : MCache → Except PlanErr (List Arg × MCache)) :
    bucketStep u unl keyf key method? args excluded usedKeys ms next =
      specBucketStep u unl keyf key method? args excluded usedKeys ms next := by
  funext st
  simp only [bucketStep, specBucketStep, runBucket_eq]

theorem bucketChain_eq (u : Unpacker)
    (unl : Arg → MCache → Except PlanErr (Option Arg × MCache))
    (key : String) (method? : Option String) (args : Args) (excluded : Finset String)
    (usedKeys : Finset (List String)) (b1 b2 b3 b4 : List SMeth) (st : MCache) :
    bucketChain u unl key method? args excluded usedKeys b1 b2 b3 b4 st =
      specBucketChain u unl key method? args excluded usedKeys b1 b2 b3 b4 st := by
  simp only [bucketChain, specBucketChain, bucketStep_eq]

theorem resolveGroup_sorted (unl : Arg → MCache → Except PlanErr (Option Arg × MCache))
    (g0 : List Arg) (st : MCache) (res : List Arg) (st1 : MCache)
    (h : resolveGroup unl g0 st = .ok (some res, st1)) :
    res.Pairwise (fun a b => fullKey b ≤ fullKey a) := by
  rw [resolveGroup] at h
  cases hu : unlazyGroupL unl g0 st with
  | error e =>
    rw [hu, except_bind_err] at h
    exact absurd h (by simp)
  | ok r2 =>
    rw [hu, except_bind_ok] at h
    by_cases he : r2.1.isEmpty
    · rw [if_pos he] at h
      simp at h
    · rw [if_neg he] at h
      simp only [Except.ok.injEq, Prod.mk.injEq, Option.some.injEq] at h
      rw [← h.1]
      exact pairwise_descSort fullKey r2.1

theorem tryGroups_sorted (unl : Arg → MCache → Except PlanErr (Option Arg × MCache)) :
    ∀ (gs : List (List Arg)) (st : MCache) (g : List Arg) (st' : MCache),
      tryGroupsGen unl gs st = .ok (some g, st') →
      g.Pairwise (fun a b => fullKey b ≤ fullKey a) := by
  intro gs
  induction gs with
  | nil =>
    intro st g st' h
    rw [tryGroupsGen] at h
    simp at h
  | cons g0 gs ih =>
    intro st g st' h
    rw [tryGroupsGen] at h
    cases hr : resolveGroup unl g0 st with
    | error e =>
      rw [hr, except_bind_err] at h
      exact absurd h (by simp)
    | ok r =>
      rw [hr, except_bind_ok] at h
      obtain ⟨opt, st1⟩ := r
      cases opt with
      | some res =>
        have h' : (Except.ok (some res, st1) : Except PlanErr (Option (List Arg) × MCache)) =
            .ok (some g, st') := h
        simp only [Except.ok.injEq, Prod.mk.injEq, Option.some.injEq] at h'
        rw [← h'.1]
        exact resolveGroup_sorted unl g0 st res st1 hr
      | none =>
        exact ih st1 g st' h

theorem runBucket_sorted [LinearOrder κ] (u : Unpacker)
    (unl : Arg → MCache → Except PlanErr (Option Arg × MCache)) (keyf : Arg → κ)
    (key : String) (method? : Option String) (args : Args) (excluded : Finset String)
    (usedKeys : Finset (List String)) (ms : List SMeth) (st : MCache)
    (g : List Arg) (st' : MCache)
    (h : runBucketGen u unl keyf key method? args excluded usedKeys ms st = .ok (some g, st')) :
    g.Pairwise (fun a b => fullKey b ≤ fullKey a) := by
  rw [runBucketGen] at h
  cases hc : collectCalls u key method? args excluded usedKeys ms with
  | error e =>
    rw [hc, except_bind_err] at h
    exact absurd h (by simp)
  | ok calls =>
    rw [hc, except_bind_ok] at h
    exact tryGroups_sorted unl _ st g st' h

theorem bucketStep_sorted [LinearOrder κ] (u : Unpacker)
    (unl : Arg → MCache → Except PlanErr (Option Arg × MCache)) (keyf : Arg → κ)
    (key : String) (method? : Option String) (args : Args) (excluded : Finset String)
    (usedKeys : Finset (List String)) (ms : List SMeth)
    (next : MCache → Except PlanErr (List Arg × MCache)) (st : MCache)
    (g : List Arg) (st' : MCache)
    (hnext : ∀ (s : MCache) (g' : List Arg) (st'' : MCache), next s = .ok (g', st'') →
      List.Pairwise (fun a b => fullKey b ≤ fullKey a) g')
    (h : bucketStep u unl keyf key method? args excluded usedKeys ms next st = .ok (g, st')) :
    g.Pairwise (fun a b => fullKey b ≤ fullKey a) := by
  rw [bucketStep] at h
  cases h1 : runBucketGen u unl keyf key method? args excluded usedKeys ms st with
  | error e =>
    rw [h1, except_bind_err] at h
    exact absurd h (by simp)
  | ok r =>
    rw [h1, except_bind_ok] at h
    obtain ⟨o, s1⟩ := r
    cases o with
    | some gg =>
      have h' : (Except.ok (gg, s1) : Except PlanErr (List Arg × MCache)) = .ok (g, st') := h
      simp only [Except.ok.injEq, Prod.mk.injEq] at h'
      rw [← h'.1]
      exact runBucket_sorted u unl keyf key method? args excluded usedKeys ms st gg s1 h1
    | none => exact hnext s1 g st' h

theorem bucketChain_sorted (u : Unpacker)
    (unl : Arg → MCache → Except PlanErr (Option Arg × MCache))
    (key : String) (method? : Option String) (args : Args) (excluded : Finset String)
    (usedKeys : Finset (List String)) (b1 b2 b3 b4 : List SMeth) (st : MCache)
    (g : List Arg) (st' : MCache)
    (h : bucketChain u unl key method? args excluded usedKeys b1 b2 b3 b4 st = .ok (g, st')) :
    g.Pairwise (fun a b => fullKey b ≤ fullKey a) := by
  rw [bucketChain] at h
  refine bucketStep_sorted u unl bestKey key method? args excluded usedKeys b1 _ st g st' ?_ h
  intro s2 g2 st2 h2
  refine bucketStep_sorted u unl bestKey key method? args excluded usedKeys b2 _ s2 g2 st2 ?_ h2
  intro s3 g3 st3 h3
  refine bucketStep_sorted u unl quickKey key method? args excluded usedKeys b3 _ s3 g3 st3 ?_ h3
  intro s4 g4 st4 h4
  refine bucketStep_sorted u unl quickKey key method? args excluded usedKeys b4 _ s4 g4 st4 ?_ h4
  intro s5 g5 st5 h5
  simp only [Except.ok.injEq, Prod.mk.injEq] at h5
  rw [← h5.1]
  exact List.Pairwise.nil

theorem serviceCore_sorted (u : Unpacker) (svc : SService)
    (shg : String → Option String → Option Shape → Args → Finset String →
      Finset (List String) → MCache → Except PlanErr (List Arg × MCache))
    (key : String) (method? : Option String) (args : Args) (excluded : Finset String)
    (usedKeys : Finset (List String)) (st : MCache) (g : List Arg) (st' : MCache)
    (h : serviceCore u svc shg key method? args excluded usedKeys st = .ok (g, st')) :
    g.Pairwise (fun a b => fullKey b ≤ fullKey a) := by
  rw [serviceCore] at h
  exact bucketChain_sorted u _ key method? args excluded usedKeys _ _ _ _ st g st' h

/-- C6 (amended): without a shape short-circuit, Service.how_to_get equals
the spec-side bucket pipeline -- the four buckets best, best-method, good,
bad in that order, each grouping its collected lazy call outputs by the
bucket score ((-requires count, quick score) for the two best buckets, the
quick score alone for the others), trying the distinct scores in descending
order and returning the first group that resolves, leaving later groups and
buckets unresolved -- and every returned group is sorted descending by the
full score.  The equality holds for every leaf destructuring, including the
source's failing one; the letter of the claim fails on the source because
of the destructuring ValueError, see the counterexample. -/
theorem service_bucket_pipeline (u : Unpacker) (svc : SService) (fuel : Nat)
    (key : String) (method? : Option String) (args : Args) (excluded : Finset String)
    (usedKeys : Finset (List String)) (st : MCache) :
    serviceHowToGetE u svc (fuel + 1) key method? none args excluded usedKeys st =
      specServiceHowToGet u svc fuel key method? args excluded usedKeys st ∧
    (∀ (g : List Arg) (st' : MCache),
      serviceHowToGetE u svc (fuel + 1) key method? none args excluded usedKeys st =
        .ok (g, st') →
      g.Pairwise (fun a b => fullKey b ≤ fullKey a)) := by
  constructor
  · show serviceCore u svc (serviceHowToGetE u svc fuel) key method? args excluded usedKeys st = _
    simp only [serviceCore, specServiceHowToGet, bucketChain_eq]
  · intro g st' h
    have h' : serviceCore u svc (serviceHowToGetE u svc fuel) key method? args excluded
        usedKeys st = .ok (g, st') := h
    exact serviceCore_sorted u svc (serviceHowToGetE u svc fuel) key method? args excluded
      usedKeys st g st' h'

/-- The C6 theorem applied to the empty service with empty state: the source
pipeline agrees with the spec pipeline and the returned (empty) group is
descending. -/
theorem service_bucket_pipeline_witness :
    serviceHowToGetE unpackSrc ⟨[]⟩ 1 "k" none none [] ∅ ∅ [] =
      specServiceHowToGet unpackSrc ⟨[]⟩ 0 "k" none [] ∅ ∅ [] ∧
    List.Pairwise (fun a b => fullKey b ≤ fullKey a) ([] : List Arg) :=
  ⟨(service_bucket_pipeline unpackSrc ⟨[]⟩ 0 "k" none [] ∅ ∅ []).1,
   (service_bucket_pipeline unpackSrc ⟨[]⟩ 0 "k" none [] ∅ ∅ []).2 [] [] rfl⟩

/-! ## A one-method service whose output has a leaf -/

def getXMeth : SMeth := ⟨"get_x", none, some (Shape.struct [("X", strShapeE)] [])⟩

def oneSvc : SService := ⟨[getXMeth]⟩

/-- C6, the letter of the claim against the source: on a service with one
candidate method whose output shape has a leaf, how_to_get("X") raises
ValueError (the two-name destructuring of map_shape's three-tuples at
method.py line 72) instead of returning the resolved group; with the evident
destructuring the pipeline returns exactly the resolved singleton group. -/
theorem sort_calls_src_unpack_error :
    serviceHowToGetE unpackSrc oneSvc 2 "X" none none [] ∅ ∅ [] = .error .unpack ∧
    (∃ st, serviceHowToGetE unpackFix oneSvc 2 "X" none none [] ∅ ∅ [] =
      .ok ([Arg.callOutput getXMeth [] [Seg.field "X"]
        (scoreOr (kscore (keySpecMake "X" none) (methPath getXMeth)))
        (scoreOr (kscore (keySpecMake "X" none)
          (scoreTokens (methPath getXMeth) [Seg.field "X"])))
        none], st)) := by
  refine ⟨rfl, ⟨_, rfl⟩⟩
